import Mathlib

/-!
Verification of the auto-manager orchestration design against its sources.

Part 1 embeds the frontend message-display filter (ThinkBlock module:
getDisplayContent) as executable functions on character lists.
Part 2 embeds the frontend agent-event stream types (ThinkingStep,
eventToStep of ChatInterfaceV2).
Part 3 models the Agent Orchestration Engine.  The backend engine
(supervisor, sequential execution controller, validation firewall, loop
detector, document pipeline) is not among the checked-in sources, which
hold only the front end, test-script documentation and the design paper;
those components are therefore modelled from the specification, and every
such definition is marked "Modelled from the spec".
-/

namespace AutoMgr

/-! ### Part 1: the display-content filter (frontend ThinkBlock module) -/

/-- Case-insensitive character equality, mirroring the i flag of the
source regexes. -/
def ciEqChar (a b : Char) : Bool := a.toLower == b.toLower

/-- Does the list start with the pattern, case-insensitively. -/
def ciStartsWith : List Char → List Char → Bool
  | _, [] => true
  | [], _ :: _ => false
  | c :: cs, p :: ps => ciEqChar c p && ciStartsWith cs ps

/-- Does the pattern occur anywhere in the list, case-insensitively;
this mirrors includes on lowercased strings in the source. -/
def ciContains : List Char → List Char → Bool
  | [], pat => pat.isEmpty
  | c :: cs, pat => ciStartsWith (c :: cs) pat || ciContains cs pat

/-- Drop everything up to and including the first case-insensitive
occurrence of the pattern; drops the whole list when there is none.
Mirrors replacing an anchored lazy regex that ends in the pattern by the
empty string, which the source only applies after checking that the
pattern occurs. -/
def chopToFirst (pat : List Char) : List Char → List Char
  | [] => []
  | c :: cs =>
    if ciStartsWith (c :: cs) pat then (c :: cs).drop pat.length
    else chopToFirst pat cs

/-- One global pass removing every leftmost, lazily matched
open-tag ... close-tag span, case-insensitively; the fuel argument makes
the jump past a removed span structurally recursive.  Mirrors a global
replace of a lazy tag-block regex by the empty string: matching restarts
after each removed span and never rescans the output. -/
def removeBlocksF (op cl : List Char) : Nat → List Char → List Char
  | 0, s => s
  | _ + 1, [] => []
  | fuel + 1, c :: cs =>
    if ciStartsWith (c :: cs) op && ciContains ((c :: cs).drop op.length) cl then
      removeBlocksF op cl fuel (chopToFirst cl ((c :: cs).drop op.length))
    else
      c :: removeBlocksF op cl fuel cs

/-- The tag-block removal pass, with the fuel fixed to the input length. -/
def removeBlocks (op cl s : List Char) : List Char := removeBlocksF op cl s.length s

/-- Whitespace test used by trim. -/
def wsChar (c : Char) : Bool := c.isWhitespace

/-- Trim whitespace from both ends. -/
def trimChars (l : List Char) : List Char :=
  ((l.dropWhile wsChar).reverse.dropWhile wsChar).reverse

def thinkOpen : List Char := "<think>".data
def thinkClose : List Char := "</think>".data
def canvasOpen : List Char := "<canvas>".data
def canvasClose : List Char := "</canvas>".data

/-- Core of getDisplayContent (frontend ThinkBlock module) on character
lists: the malformed-case prefix chop, the think pass, the canvas pass,
then trim, in the order of the source. -/
def getDisplayList (l : List Char) : List Char :=
  let l1 := if !ciContains l thinkOpen && ciContains l thinkClose
            then chopToFirst thinkClose l else l
  trimChars (removeBlocks canvasOpen canvasClose (removeBlocks thinkOpen thinkClose l1))

/-- String-level wrapper mirroring the source function. -/
def getDisplayContent (s : String) : String := String.mk (getDisplayList s.data)

/-- Does the list contain a complete open-tag ... close-tag block
(case-insensitively, lazily closed). -/
def containsBlock (op cl : List Char) : List Char → Bool
  | [] => false
  | c :: cs =>
    (ciStartsWith (c :: cs) op && ciContains ((c :: cs).drop op.length) cl) ||
      containsBlock op cl cs

/-- No occurrence of any think or canvas tag. -/
def tagFree (l : List Char) : Bool :=
  !ciContains l thinkOpen && !ciContains l thinkClose &&
  !ciContains l canvasOpen && !ciContains l canvasClose

/-- A pattern is self-overlap free when no strict rotation point lets the
pattern case-insensitively start with its own tail; the four tag strings
all are, so a tag occurrence cannot straddle a spliced-in copy. -/
def selfOverlapFree (pat : List Char) : Bool :=
  (List.range pat.length).all fun k => k == 0 || !ciStartsWith pat (pat.drop k)

/-! ### Part 2: the frontend agent-event stream (ThinkingStep, eventToStep) -/

/-- The union of step kinds of the frontend ThinkingStep interface
(ThinkBlock module and ChatInterfaceV2 declare the same literal union). -/
inductive StepType
  | thinking | tool_call | tool_result | ocr | response | routing
deriving DecidableEq

/-- The status union of the frontend ThinkingStep interface. -/
inductive StepStatus
  | started | completed | error
deriving DecidableEq

/-- The frontend ThinkingStep record: id, type, status, message, optional
data payload, timestamp; the source declares no other field, in
particular no session or conversation identifier. -/
structure ThinkingStep where
  id : String
  type : StepType
  status : StepStatus
  message : String
  data : Option (List (String × String))
  timestamp : String
deriving DecidableEq

/-- The type tag of an incoming AgentEvent: a step kind, or the stream
terminator done which handleEvent filters out before eventToStep runs. -/
inductive AgentEventType
  | step (t : StepType)
  | done
deriving DecidableEq

/-- The frontend AgentEvent as consumed by eventToStep: the fields the
source reads are type, status, message, data and timestamp. -/
structure AgentEvent where
  type : AgentEventType
  status : StepStatus
  message : String
  data : Option (List (String × String))
  timestamp : String
deriving DecidableEq

/-- The string name of a step kind, as it appears in the source union. -/
def stepTypeName : StepType → String
  | .thinking => "thinking"
  | .tool_call => "tool_call"
  | .tool_result => "tool_result"
  | .ocr => "ocr"
  | .response => "response"
  | .routing => "routing"

/-- The kind names of the ThinkingStep union as declared in the source. -/
def codeThinkingStepKinds : List String :=
  ["thinking", "tool_call", "tool_result", "ocr", "response", "routing"]

/-- Following the words of the spec: the ProgressEvent kind names of the
specified discriminated union, written down for comparison with the
union the code declares. -/
def specProgressEventKinds : List String :=
  ["reasoning-started", "tool-proposed", "tool-executing", "tool-result",
   "validation-failed", "document-stage-changed", "response-ready",
   "run-terminated"]

/-- eventToStep of ChatInterfaceV2: builds a ThinkingStep from an
AgentEvent, copying status, message, data and timestamp; the source casts
the event type to the step union, which is sound because handleEvent
returns early on done events; the nondeterministic fresh id of the source
is passed in. -/
def eventToStep (fresh : String) (e : AgentEvent) : Option ThinkingStep :=
  match e.type with
  | .done => none
  | .step t => some ⟨fresh, t, e.status, e.message, e.data, e.timestamp⟩

/-! ### Part 3: the Agent Orchestration Engine, modelled from the spec -/

/-- Modelled from the spec: an argument value of a tool call; monetary
amounts are carried as integer cents so the strictly-positive check is
exact. -/
inductive ArgValue
  | str (v : String)
  | money (cents : Int)
deriving DecidableEq

/-- An unvalidated argument set: field name, value pairs. -/
abbrev Args := List (String × ArgValue)

/-- Modelled from the spec: a reasoning-service-produced request to invoke
one named operation with given arguments; the sequence number is assigned
within the run and never reused. -/
structure ToolCallProposal where
  name : String
  args : Args
  seq : Nat
deriving DecidableEq

/-- Modelled from the spec: the kind of a field-level violation. -/
inductive ViolationKind
  | missingField | emptyIdentifier | nonPositiveAmount | wrongType
deriving DecidableEq

/-- Modelled from the spec: one field-level violation: field path, kind,
human-readable message. -/
structure Violation where
  path : String
  kind : ViolationKind
  message : String
deriving DecidableEq

/-- Modelled from the spec: pass or fail with the ordered violation
list. -/
structure ValidationResult where
  pass : Bool
  violations : List Violation
deriving DecidableEq

/-- Modelled from the spec: the mutating operations of the Capability
Registry; the inventory follows Appendix A of the in-repo paper, all
other operations being read-only lookups. -/
def mutatingOps : List String :=
  ["create_supplier", "create_customer", "create_expense_claim",
   "create_purchase_invoice", "create_sales_invoice", "create_payment",
   "create_receipt", "create_journal_entry", "create_transfer"]

/-- Side-effect class lookup of the Capability Registry. -/
def isMutating (op : String) : Bool := mutatingOps.contains op

/-- Exact list prefix test. -/
def startsWithList : List Char → List Char → Bool
  | _, [] => true
  | [], _ :: _ => false
  | c :: cs, p :: ps => (c == p) && startsWithList cs ps

/-- Exact list suffix test. -/
def endsWithList (l pat : List Char) : Bool := startsWithList l.reverse pat.reverse

/-- Modelled from the spec: identifier-shaped fields are the key-suffixed
reference fields of the ledger operations. -/
def isIdentifierField (f : String) : Bool := endsWithList f.data ("_key").data

/-- Modelled from the spec: the required fields of each mutating
operation schema; scenario A of the spec fixes the expense-claim shape. -/
def requiredFieldsOf : String → List String
  | "create_expense_claim" => ["payer_key", "account_key", "amount"]
  | _ => []

/-- Association lookup in an argument set. -/
def lookupArg : Args → String → Option ArgValue
  | [], _ => none
  | (f, v) :: rest, g => if f = g then some v else lookupArg rest g

/-- Modelled from the spec: the violations of one present field:
identifier-shaped fields must be nonempty opaque strings, monetary
amounts must be strictly positive. -/
def fieldViolations (f : String) (v : ArgValue) : List Violation :=
  if isIdentifierField f then
    match v with
    | .str s => if s = "" then [⟨f, .emptyIdentifier, "empty identifier"⟩] else []
    | .money _ => [⟨f, .wrongType, "identifier expected"⟩]
  else if f = "amount" then
    match v with
    | .money c => if c ≤ 0 then [⟨f, .nonPositiveAmount, "amount not positive"⟩] else []
    | .str _ => [⟨f, .wrongType, "amount expected"⟩]
  else []

/-- Modelled from the spec: violations for required fields that are
absent from the argument set. -/
def missingViolations (args : Args) : List String → List Violation
  | [] => []
  | f :: rest =>
    match lookupArg args f with
    | none => ⟨f, .missingField, "required field absent"⟩ :: missingViolations args rest
    | some _ => missingViolations args rest

/-- Modelled from the spec: the Validation Firewall schema check of one
proposal; pure, and it never touches the proposal. -/
def validate (op : String) (args : Args) : ValidationResult :=
  let vs := missingViolations args (requiredFieldsOf op) ++
            (args.map fun fv => fieldViolations fv.1 fv.2).flatten
  { pass := vs.isEmpty, violations := vs }

/-- Modelled from the spec: one firewall call as observed by a caller:
it returns the result and leaves the proposal exactly as it was. -/
def validateCall (p : ToolCallProposal) : ValidationResult × ToolCallProposal :=
  (validate p.name p.args, p)

/-- Byte-order comparison of field names used to normalize fingerprints. -/
def strLeChars : List Char → List Char → Bool
  | [], _ => true
  | _ :: _, [] => false
  | a :: as, b :: bs =>
    if a.toNat < b.toNat then true
    else if b.toNat < a.toNat then false
    else strLeChars as bs

/-- Field-name ordering for fingerprint normalization. -/
def argKeyLe (a b : String) : Bool := strLeChars a.data b.data

/-- Insertion step of the fingerprint normalization sort. -/
def insertArg (x : String × ArgValue) : Args → Args
  | [] => [x]
  | y :: ys => if argKeyLe x.1 y.1 then x :: y :: ys else y :: insertArg x ys

/-- Modelled from the spec: the normalized, order-independent
argument-set fingerprint, realized as an insertion sort by field name. -/
def normalizeArgs : Args → Args
  | [] => []
  | x :: xs => insertArg x (normalizeArgs xs)

/-- A loop-detector key: operation name with argument fingerprint. -/
abbrev LoopKey := String × Args

/-- Modelled from the spec: per-run occurrence counts of loop keys. -/
abbrev LoopLog := List (LoopKey × Nat)

/-- Occurrence count of a key in the log. -/
def keyCount : LoopLog → LoopKey → Nat
  | [], _ => 0
  | (k, n) :: rest, q => if k = q then n else keyCount rest q

/-- Increment the count of a key. -/
def bump : LoopLog → LoopKey → LoopLog
  | [], q => [(q, 1)]
  | (k, n) :: rest, q => if k = q then (k, n + 1) :: rest else (k, n) :: bump rest q

/-- The Loop Detector verdict. -/
inductive LoopDecision
  | proceed | terminate
deriving DecidableEq

/-- Modelled from the spec: the fixed loop threshold (repeat count > 2). -/
def loopThreshold : Nat := 2

/-- Modelled from the spec: observe one executed call: the count of its
(operation, fingerprint) pair is bumped, and the verdict is Terminate
exactly when the updated count strictly exceeds the threshold. -/
def observeCall (log : LoopLog) (op : String) (args : Args) :
    LoopLog × LoopDecision :=
  let k : LoopKey := (op, normalizeArgs args)
  let log2 := bump log k
  (log2, if loopThreshold < keyCount log2 k then .terminate else .proceed)

/-- Modelled from the spec: the result of one Tool Invoker call; a
mutating success carries the created-record identifier as its payload. -/
inductive ToolOutcome
  | ok (payload : String)
  | fail (reason : String)
  | timeout
deriving DecidableEq

/-- Modelled from the spec: one reasoning-service turn: a plain answer,
or a list of raw proposals, possibly several, possibly none. -/
inductive ReasoningTurn
  | answer (text : String)
  | calls (ps : List (String × Args))
deriving DecidableEq

/-- Modelled from the spec: the terminal abort reasons of a run. -/
inductive AbortReason
  | loopDetected | validationBudget | reasoningUnavailable
  | toolFailed | toolTimeout | budgetExceeded | cancelled
deriving DecidableEq

/-- Modelled from the spec: the final verdict of a run. -/
inductive RunOutcome
  | completed (answer : String)
  | aborted (reason : AbortReason)
deriving DecidableEq

/-- Modelled from the spec: a proposal together with its execution
outcome, appended to the in-run audit log. -/
structure ToolCallRecord where
  call : ToolCallProposal
  outcome : ToolOutcome
deriving DecidableEq

/-- Modelled from the spec: when a caller cancellation request arrives:
while the controller is reasoning or awaiting validation before step k
(immediate effect), or while invoker call number n is in flight (the
call is allowed to complete first). -/
inductive CancelPoint
  | beforeStep (k : Nat)
  | duringCall (n : Nat)
deriving DecidableEq

/-- Modelled from the spec: the ordered event stream of one run; each
constructor is one ProgressEvent kind the controller emits. -/
inductive TraceEvent
  | reasoningStarted (step : Nat)
  | toolProposed (p : ToolCallProposal)
  | proposalDiscarded (p : ToolCallProposal)
  | validationCall (p : ToolCallProposal) (r : ValidationResult)
  | invokeStart (p : ToolCallProposal)
  | invokeEnd (p : ToolCallProposal) (o : ToolOutcome)
  | runTerminated (out : RunOutcome)
deriving DecidableEq

/-- Modelled from the spec: per-run configuration: validation retry
budget, proposal-count ceiling, and the pending cancellation request. -/
structure RunConfig where
  retryBudget : Nat
  proposalCeiling : Nat
  cancel : Option CancelPoint
deriving DecidableEq

/-- Controller-internal state threaded through the run. -/
structure CtrlState where
  nextSeq : Nat
  retries : Nat
  used : Nat
  callCount : Nat
  loopLog : LoopLog
  callLog : List ToolCallRecord
  stepIdx : Nat
deriving DecidableEq

/-- Modelled from the spec: the surfaced result of a run: the final
verdict, the full call log, and the ordered event trace. -/
structure RunResult where
  outcome : RunOutcome
  callLog : List ToolCallRecord
  trace : List TraceEvent
deriving DecidableEq

/-- Stamp raw proposals with consecutive sequence numbers. -/
def stampFrom (n : Nat) : List (String × Args) → List ToolCallProposal
  | [] => []
  | c :: cs => ⟨c.1, c.2, n⟩ :: stampFrom (n + 1) cs

/-- Close a run: the terminal event is appended as the last trace
entry so the caller never infers failure from stream truncation. -/
def finish (st : CtrlState) (out : RunOutcome) (pre : List TraceEvent) :
    RunResult :=
  { outcome := out, callLog := st.callLog, trace := pre ++ [.runTerminated out] }

/-- Modelled from the spec: dispatch one gated call: a single invoker
call is started and always runs to completion, its record is appended to
the call log, then cancellation, outcome and the Loop Detector are
consulted, in that order. -/
def execCall (cfg : RunConfig) (outs : Nat → ToolOutcome) (st : CtrlState)
    (p : ToolCallProposal) : List TraceEvent × CtrlState × Option RunOutcome :=
  let o := outs st.callCount
  let stA : CtrlState :=
    { st with callLog := st.callLog ++ [⟨p, o⟩],
              callCount := st.callCount + 1, used := st.used + 1 }
  let evs : List TraceEvent := [.invokeStart p, .invokeEnd p o]
  if cfg.cancel = some (.duringCall st.callCount) then
    (evs, stA, some (.aborted .cancelled))
  else
    match o with
    | .timeout => (evs, stA, some (.aborted .toolTimeout))
    | .fail _ => (evs, stA, some (.aborted .toolFailed))
    | .ok _ =>
      let od := observeCall stA.loopLog p.name p.args
      let stB := { stA with loopLog := od.1 }
      (evs, stB, if od.2 = .terminate then some (.aborted .loopDetected) else none)

/-- Result of one controller iteration: halt with a final verdict, or
continue reasoning with the next state; both carry the emitted events. -/
inductive StepRes
  | halt (evs : List TraceEvent) (st : CtrlState) (out : RunOutcome)
  | cont (evs : List TraceEvent) (st : CtrlState)
deriving DecidableEq

/-- The events an iteration emitted. -/
def StepRes.evs : StepRes → List TraceEvent
  | .halt evs _ _ => evs
  | .cont evs _ => evs

/-- The controller state an iteration left behind. -/
def StepRes.state : StepRes → CtrlState
  | .halt _ st _ => st
  | .cont _ st => st

/-- The first proposal of a reasoning turn, stamped with the next
sequence number of the run. -/
def headProp (st : CtrlState) (c : String × Args) : ToolCallProposal :=
  ⟨c.1, c.2, st.nextSeq⟩

/-- Advance the sequence counter past the whole proposal batch and move
to the next reasoning step. -/
def bumpSeq (st : CtrlState) (cs : List (String × Args)) : CtrlState :=
  { st with nextSeq := st.nextSeq + 1 + cs.length, stepIdx := st.stepIdx + 1 }

/-- Count one validation failure against the per-run retry budget. -/
def bumpRetry (st : CtrlState) : CtrlState :=
  { st with retries := st.retries + 1 }

/-- The leading events of a proposal iteration: the reasoning start, the
proposal taken forward, and one recording event per discarded trailing
proposal of the same response. -/
def callsPre (st : CtrlState) (c : String × Args)
    (cs : List (String × Args)) : List TraceEvent :=
  .reasoningStarted st.stepIdx :: .toolProposed (headProp st c) ::
    (stampFrom (st.nextSeq + 1) cs).map .proposalDiscarded

/-- The validation event of the head proposal. -/
def vcEvent (st : CtrlState) (c : String × Args) : TraceEvent :=
  .validationCall (headProp st c) (validate c.1 c.2)

/-- Modelled from the spec: one iteration of the Sequential Execution
Controller.  A pending immediate cancellation aborts first; a plain
answer completes the run; an empty proposal list is a reasoning outage;
otherwise of several simultaneous proposals only the first is taken
forward and the rest are discarded with a recording event, the ceiling is
enforced, a mutating proposal is gated by the firewall with a correction
retry on failure, and a gated call runs through the invoker. -/
def stepTurn (cfg : RunConfig) (outs : Nat → ToolOutcome)
    (turn : ReasoningTurn) (st : CtrlState) : StepRes :=
  if cfg.cancel = some (.beforeStep st.stepIdx) then
    .halt [] st (.aborted .cancelled)
  else
    match turn with
    | .answer t =>
      .halt [.reasoningStarted st.stepIdx] st (.completed t)
    | .calls [] =>
      .halt [.reasoningStarted st.stepIdx] st (.aborted .reasoningUnavailable)
    | .calls (c :: cs) =>
      if cfg.proposalCeiling ≤ st.used then
        .halt (callsPre st c cs) (bumpSeq st cs) (.aborted .budgetExceeded)
      else if isMutating c.1 then
        if (validate c.1 c.2).pass then
          match (execCall cfg outs (bumpSeq st cs) (headProp st c)).2.2 with
          | some out =>
            .halt (callsPre st c cs ++ [vcEvent st c] ++
                (execCall cfg outs (bumpSeq st cs) (headProp st c)).1)
              (execCall cfg outs (bumpSeq st cs) (headProp st c)).2.1 out
          | none =>
            .cont (callsPre st c cs ++ [vcEvent st c] ++
                (execCall cfg outs (bumpSeq st cs) (headProp st c)).1)
              (execCall cfg outs (bumpSeq st cs) (headProp st c)).2.1
        else
          if cfg.retryBudget ≤ st.retries then
            .halt (callsPre st c cs ++ [vcEvent st c])
              (bumpRetry (bumpSeq st cs)) (.aborted .validationBudget)
          else
            .cont (callsPre st c cs ++ [vcEvent st c])
              (bumpRetry (bumpSeq st cs))
      else
        match (execCall cfg outs (bumpSeq st cs) (headProp st c)).2.2 with
        | some out =>
          .halt (callsPre st c cs ++
              (execCall cfg outs (bumpSeq st cs) (headProp st c)).1)
            (execCall cfg outs (bumpSeq st cs) (headProp st c)).2.1 out
        | none =>
          .cont (callsPre st c cs ++
              (execCall cfg outs (bumpSeq st cs) (headProp st c)).1)
            (execCall cfg outs (bumpSeq st cs) (headProp st c)).2.1

/-- Modelled from the spec: the Sequential Execution Controller loop; one
reasoning turn is consumed per iteration and the event chunks are
concatenated in order. -/
def runAux (cfg : RunConfig) (outs : Nat → ToolOutcome) :
    List ReasoningTurn → CtrlState → RunResult
  | [], st => finish st (.aborted .reasoningUnavailable) []
  | turn :: rest, st =>
    match stepTurn cfg outs turn st with
    | .halt evs st' out => finish st' out evs
    | .cont evs st' =>
      let rr := runAux cfg outs rest st'
      { rr with trace := evs ++ rr.trace }

/-- The fresh controller state of a run. -/
def initState : CtrlState := ⟨0, 0, 0, 0, [], [], 0⟩

/-- Modelled from the spec: run one Worker Role to completion or abort. -/
def run (cfg : RunConfig) (outs : Nat → ToolOutcome)
    (turns : List ReasoningTurn) : RunResult :=
  runAux cfg outs turns initState

/-! ### Part 3b: the Document Pipeline, modelled from the spec -/

/-- Modelled from the spec: the lifecycle stages of a DocumentRecord. -/
inductive DocStage
  | extracting | fieldsMatched | awaitingEntry | validated | committed | failed
deriving DecidableEq

/-- Modelled from the spec: a DocumentRecord: source reference, extracted
fields, lifecycle stage, the retained ledger identifier once committed,
and the retained raw OCR error on failure. -/
structure DocumentRecord where
  source : String
  fields : List (String × String)
  stage : DocStage
  ledgerId : Option String
  failure : Option String
deriving DecidableEq

/-- Modelled from the spec: best-effort OCR collaborator output. -/
inductive OcrOutcome
  | ok (fields : List (String × String))
  | err (message : String)
deriving DecidableEq

/-- The ledger identifier of the first successful mutating write in a
call log, if any. -/
def ledgerIdOf : List ToolCallRecord → Option String
  | [] => none
  | r :: rest =>
    if isMutating r.call.name then
      match r.outcome with
      | .ok payload => some payload
      | _ => ledgerIdOf rest
    else ledgerIdOf rest

/-- The pipeline verdict for one document: the record, whether an
entry-creation run was started, and that run, if any. -/
structure PipelineResult where
  record : DocumentRecord
  runStarted : Bool
  runResult : Option RunResult
deriving DecidableEq

/-- Modelled from the spec: the Document Pipeline: a failed extraction
moves the record to Failed with the raw error retained and starts no
entry-creation run; otherwise the fields are handed to a controller run
bound to the entry role, and the record is Committed, retaining the
ledger-assigned identifier, only when that run completed and its log
holds a successful mutating write. -/
def processDocument (cfg : RunConfig) (outs : Nat → ToolOutcome)
    (turns : List ReasoningTurn) (src : String) (ocr : OcrOutcome) :
    PipelineResult :=
  match ocr with
  | .err m => ⟨⟨src, [], .failed, none, some m⟩, false, none⟩
  | .ok fs =>
    let rr := run cfg outs turns
    match rr.outcome, ledgerIdOf rr.callLog with
    | .completed _, some id => ⟨⟨src, fs, .committed, some id, none⟩, true, some rr⟩
    | .completed _, none => ⟨⟨src, fs, .awaitingEntry, none, none⟩, true, some rr⟩
    | .aborted _, _ => ⟨⟨src, fs, .failed, none, none⟩, true, some rr⟩

/-! ### Part 3c: trace scanners and counters -/

/-- One gate check: the current event may only start a mutating call if
the immediately preceding event was a passing validation of that very
proposal. -/
def gateStep (prev cur : TraceEvent) : Bool :=
  match cur with
  | .invokeStart p =>
    if isMutating p.name then
      match prev with
      | .validationCall q r => decide (q = p) && r.pass
      | _ => false
    else true
  | _ => true

/-- Scan a trace checking every adjacent pair with the gate check. -/
def gateFrom : TraceEvent → List TraceEvent → Bool
  | _, [] => true
  | prev, e :: rest => gateStep prev e && gateFrom e rest

/-- Whole-trace gate check; the dummy previous event makes a leading
invoke event illegal. -/
def gateAll (l : List TraceEvent) : Bool := gateFrom (.reasoningStarted 0) l

/-- Single-slot scanner: between a call start and its completion nothing
else may happen, completions match their starts, and no start may occur
while a call is in flight. -/
def seScan : Option ToolCallProposal → List TraceEvent → Bool
  | some _, [] => false
  | none, [] => true
  | none, .invokeStart p :: rest => seScan (some p) rest
  | none, .invokeEnd _ _ :: _ => false
  | none, _ :: rest => seScan none rest
  | some p, .invokeEnd q _ :: rest => decide (q = p) && seScan none rest
  | some _, _ :: _ => false

/-- Number of invoker-call starts in a trace. -/
def countStarts (l : List TraceEvent) : Nat :=
  l.countP fun e => match e with | .invokeStart _ => true | _ => false

/-- Number of invoker-call completions in a trace. -/
def countEnds (l : List TraceEvent) : Nat :=
  l.countP fun e => match e with | .invokeEnd _ _ => true | _ => false

/-- Is the event a terminal run event. -/
def isTermEvent : TraceEvent → Bool
  | .runTerminated _ => true
  | _ => false

/-- Is the event an invoker start or completion. -/
def isInvokeEvent : TraceEvent → Bool
  | .invokeStart _ => true
  | .invokeEnd _ _ => true
  | _ => false

/-- The proposal an event carries, if any. -/
def eventProposal : TraceEvent → Option ToolCallProposal
  | .toolProposed p => some p
  | .proposalDiscarded p => some p
  | .validationCall p _ => some p
  | .invokeStart p => some p
  | .invokeEnd p _ => some p
  | _ => none

/-! ### Part 3d: scanner weight and concrete fixtures -/

/-- The number of in-flight calls the single-slot scanner state carries. -/
def scWeight : Option ToolCallProposal → Nat
  | none => 0
  | some _ => 1

/-- A plain configuration with no pending cancellation. -/
def plainCfg : RunConfig := ⟨3, 10, none⟩

/-- An invoker collaborator that always succeeds with the same payload. -/
def okOuts : Nat → ToolOutcome := fun _ => .ok ("R-1")

/-- An invoker collaborator returning the ledger identifier of a
created entry. -/
def ledgerOuts : Nat → ToolOutcome := fun _ => .ok ("L-77")

/-- Scenario C of the spec: three identical read-only proposals. -/
def scenCTurns : List ReasoningTurn :=
  [.calls [("search_employee", [("query", .str ("director"))])],
   .calls [("search_employee", [("query", .str ("director"))])],
   .calls [("search_employee", [("query", .str ("director"))])]]

/-- Scenario C with a fourth identical turn the detector must never
reach. -/
def scenCExtra : List ReasoningTurn :=
  scenCTurns ++ [.calls [("search_employee", [("query", .str ("director"))])]]

/-- Scenario B: the head proposal of a two-proposal reasoning response. -/
def c4Head : String × Args := ("search_employee", [("query", .str ("alice"))])

/-- Scenario B: the trailing proposal of the same response. -/
def c4Rest : List (String × Args) :=
  [("get_account", [("account_key", .str ("A1"))])]

/-- Scenario B as a full run: the double proposal, then an answer. -/
def c4Turns : List ReasoningTurn := [.calls (c4Head :: c4Rest), .answer ("done")]

/-- The discarded second proposal of scenario B, stamped with the
sequence number the controller assigns it. -/
def dProp : ToolCallProposal :=
  ⟨"get_account", [("account_key", .str ("A1"))], 1⟩

/-- A well-formed expense-claim argument set, in integer cents. -/
def goodClaimArgs : Args :=
  [("payer_key", .str ("E-7")), ("account_key", .str ("A-3")),
   ("amount", .money 4550)]

/-- A run that creates one ledger entry and then answers. -/
def c5Turns : List ReasoningTurn :=
  [.calls [("create_expense_claim", goodClaimArgs)], .answer ("entry created")]

/-- Extracted fields of the fixture document. -/
def c5Fields : List (String × String) := [("total", "45.50")]

/-- Source reference of the fixture document. -/
def c5Src : String := "receipt-004.pdf"

/-- The mutating proposal the entry-creation fixture run invokes. -/
def cProp : ToolCallProposal := ⟨"create_expense_claim", goodClaimArgs, 0⟩

/-- Scenario A of the spec: empty payer key, other fields well formed. -/
def c6Args : Args :=
  [("payer_key", .str ("")), ("account_key", .str ("xyz")),
   ("amount", .money 4550)]

/-- A cancellation request arriving while invoker call 0 is in flight. -/
def c7Cfg : RunConfig := ⟨3, 10, some (.duringCall 0)⟩

/-- The turns of the cancelled fixture run. -/
def c7Turns : List ReasoningTurn :=
  [.calls [("create_expense_claim", goodClaimArgs)], .answer ("never reached")]

/-- A frontend routing event, as the planner stream emits it. -/
def routingEvent : AgentEvent := ⟨.step .routing, .started, "routing", none, "t0"⟩

/-- A frontend thinking event. -/
def thinkingEvent : AgentEvent :=
  ⟨.step .thinking, .started, "planning", none, "t1"⟩

/-- The step eventToStep builds from the thinking event. -/
def thinkingStep : ThinkingStep :=
  ⟨"s1", .thinking, .started, "planning", none, "t1"⟩

/-! ### Part 4: lemmas on the display-content filter -/

theorem ciStartsWith_length {l pat : List Char} (h : ciStartsWith l pat = true) :
    pat.length ≤ l.length := by
  induction l generalizing pat with
  | nil =>
    cases pat with
    | nil => simp
    | cons p ps => simp [ciStartsWith] at h
  | cons c cs ih =>
    cases pat with
    | nil => simp
    | cons p ps =>
      simp only [ciStartsWith, Bool.and_eq_true] at h
      simpa [Nat.succ_le_succ_iff] using ih h.2

theorem ciStartsWith_self_append (p r : List Char) :
    ciStartsWith (p ++ r) p = true := by
  induction p with
  | nil => cases r <;> simp [ciStartsWith]
  | cons c cs ih => simp [ciStartsWith, ciEqChar, ih]

theorem ciStartsWith_append_of {a q : List Char} (b : List Char)
    (h : ciStartsWith a q = true) : ciStartsWith (a ++ b) q = true := by
  induction a generalizing q with
  | nil =>
    cases q with
    | nil => cases b <;> simp [ciStartsWith]
    | cons p ps => simp [ciStartsWith] at h
  | cons c cs ih =>
    cases q with
    | nil => simp [ciStartsWith]
    | cons p ps =>
      simp only [ciStartsWith, Bool.and_eq_true] at h ⊢
      exact ⟨h.1, ih h.2⟩

theorem ciStartsWith_of_append_le {a b q : List Char}
    (h : ciStartsWith (a ++ b) q = true) (hl : q.length ≤ a.length) :
    ciStartsWith a q = true := by
  induction a generalizing q with
  | nil =>
    cases q with
    | nil => simp [ciStartsWith]
    | cons p ps => simp at hl
  | cons c cs ih =>
    cases q with
    | nil => simp [ciStartsWith]
    | cons p ps =>
      simp only [ciStartsWith, Bool.and_eq_true, List.cons_append] at h ⊢
      exact ⟨h.1, ih h.2 (by simpa [Nat.succ_le_succ_iff] using hl)⟩

theorem ciStartsWith_of_append_ge {a b q : List Char}
    (h : ciStartsWith (a ++ b) q = true) (hl : a.length ≤ q.length) :
    ciStartsWith b (q.drop a.length) = true := by
  induction a generalizing q with
  | nil => simpa using h
  | cons c cs ih =>
    cases q with
    | nil => simp at hl
    | cons p ps =>
      simp only [ciStartsWith, Bool.and_eq_true, List.cons_append] at h
      simpa using ih h.2 (by simpa [Nat.succ_le_succ_iff] using hl)

theorem ciContains_of_starts {l pat : List Char}
    (h : ciStartsWith l pat = true) : ciContains l pat = true := by
  cases l with
  | nil =>
    cases pat with
    | nil => simp [ciContains]
    | cons p ps => simp [ciStartsWith] at h
  | cons c cs => simp [ciContains, h]

theorem ciContains_append_right {b pat : List Char} (a : List Char)
    (h : ciContains b pat = true) : ciContains (a ++ b) pat = true := by
  induction a with
  | nil => simpa using h
  | cons c cs ih =>
    simp only [List.cons_append, ciContains, Bool.or_eq_true]
    exact Or.inr ih

theorem ciContains_of_suffix {t l pat : List Char} (h : t <:+ l)
    (hc : ciContains t pat = true) : ciContains l pat = true := by
  obtain ⟨pre, rfl⟩ := h
  exact ciContains_append_right pre hc

theorem chopToFirst_cons (pat : List Char) (c : Char) (cs : List Char) :
    chopToFirst pat (c :: cs) =
      if ciStartsWith (c :: cs) pat = true then (c :: cs).drop pat.length
      else chopToFirst pat cs := rfl

theorem removeBlocksF_succ_cons (op cl : List Char) (f : Nat) (c : Char)
    (cs : List Char) :
    removeBlocksF op cl (f + 1) (c :: cs) =
      if (ciStartsWith (c :: cs) op &&
          ciContains ((c :: cs).drop op.length) cl) = true then
        removeBlocksF op cl f (chopToFirst cl ((c :: cs).drop op.length))
      else c :: removeBlocksF op cl f cs := rfl

theorem chopToFirst_suffix (pat l : List Char) : chopToFirst pat l <:+ l := by
  induction l with
  | nil => simp [chopToFirst]
  | cons c cs ih =>
    rw [chopToFirst]
    split
    · exact List.drop_suffix _ _
    · exact ih.trans (List.suffix_cons c cs)

theorem chopToFirst_length_le (pat l : List Char) :
    (chopToFirst pat l).length ≤ l.length :=
  (chopToFirst_suffix pat l).length_le

theorem selfOverlapFree_elim {pat : List Char}
    (h : selfOverlapFree pat = true) {k : Nat} (h0 : 0 < k)
    (hk : k < pat.length) : ciStartsWith pat (pat.drop k) = false := by
  have := (List.all_eq_true.mp h) k (List.mem_range.mpr hk)
  simp only [Bool.or_eq_true, beq_iff_eq, Bool.not_eq_eq_eq_not, Bool.not_true] at this
  rcases this with h' | h'
  · omega
  · simpa using h'

theorem chopToFirst_append {pat t : List Char} (r : List Char)
    (hso : selfOverlapFree pat = true) (ht : ciContains t pat = false) :
    chopToFirst pat (t ++ pat ++ r) = r := by
  induction t with
  | nil =>
    simp only [List.nil_append]
    cases hpr : pat ++ r with
    | nil =>
      rcases List.append_eq_nil.mp hpr with ⟨h1, h2⟩
      simp [h1, h2, chopToFirst]
    | cons c cs =>
      have h1 : ciStartsWith (c :: cs) pat = true := by
        rw [← hpr]
        exact ciStartsWith_self_append pat r
      rw [chopToFirst_cons, if_pos h1, ← hpr, List.drop_left]
  | cons c t' ih =>
    have hfalse : ciStartsWith ((c :: t') ++ (pat ++ r)) pat = false := by
      cases hsw : ciStartsWith ((c :: t') ++ (pat ++ r)) pat with
      | false => rfl
      | true =>
        rcases le_or_lt pat.length (c :: t').length with hle | hlt
        · have := ciContains_of_starts (ciStartsWith_of_append_le hsw hle)
          rw [ht] at this
          exact absurd this (by simp)
        · have h1 := ciStartsWith_of_append_ge hsw (Nat.le_of_lt hlt)
          have h2 := ciStartsWith_of_append_le h1
            (by simp)
          have h3 := selfOverlapFree_elim hso
            (by simp) hlt
          rw [h3] at h2
          exact absurd h2 (by simp)
    rw [List.cons_append] at hfalse
    have ht' : ciContains t' pat = false := by
      rw [ciContains, Bool.or_eq_false_iff] at ht
      exact ht.2
    rw [List.append_assoc, List.cons_append, chopToFirst_cons,
      if_neg (by simp [hfalse]), ← List.append_assoc]
    exact ih ht'

theorem removeBlocksF_noOcc {op s : List Char} (cl : List Char) (f : Nat)
    (h : ciContains s op = false) : removeBlocksF op cl f s = s := by
  induction f generalizing s with
  | zero => rfl
  | succ g ih =>
    cases s with
    | nil => rfl
    | cons c cs =>
      rw [ciContains, Bool.or_eq_false_iff] at h
      rw [removeBlocksF, if_neg (by simp [h.1]), ih h.2]

theorem removeBlocks_noOcc {op s : List Char} (cl : List Char)
    (h : ciContains s op = false) : removeBlocks op cl s = s :=
  removeBlocksF_noOcc cl s.length h

theorem removeBlocksF_fuelInv {op : List Char} (hop : op ≠ []) (cl : List Char) :
    ∀ (f₁ f₂ : Nat) (s : List Char), s.length ≤ f₁ → s.length ≤ f₂ →
      removeBlocksF op cl f₁ s = removeBlocksF op cl f₂ s := by
  intro f₁
  induction f₁ with
  | zero =>
    intro f₂ s h1 _
    have : s = [] := List.eq_nil_of_length_eq_zero (Nat.le_zero.mp h1)
    subst this
    cases f₂ <;> rfl
  | succ g ih =>
    intro f₂ s h1 h2
    cases s with
    | nil => cases f₂ <;> rfl
    | cons c cs =>
      cases f₂ with
      | zero => simp at h2
      | succ g2 =>
        have hop1 : 1 ≤ op.length := List.length_pos.mpr hop
        rw [removeBlocksF, removeBlocksF]
        have hc := chopToFirst_length_le cl ((c :: cs).drop op.length)
        simp only [List.length_drop, List.length_cons] at hc
        simp only [List.length_cons] at h1 h2
        split
        · apply ih
          · omega
          · omega
        · rw [ih g2 cs (by omega) (by omega)]

theorem no_tail_start {op : List Char} (hso : selfOverlapFree op = true)
    (w : List Char) :
    ∀ k, 0 < k → k < op.length → ciStartsWith (op ++ w) (op.drop k) = false := by
  intro k h0 hk
  cases hsw : ciStartsWith (op ++ w) (op.drop k) with
  | false => rfl
  | true =>
    have h2 := ciStartsWith_of_append_le hsw
      (by simp)
    rw [selfOverlapFree_elim hso h0 hk] at h2
    exact absurd h2 (by simp)

theorem removeBlocks_walk {op : List Char} (cl : List Char)
    {a : List Char} (z : List Char) (ha : ciContains a op = false)
    (hz : ∀ k, 0 < k → k < op.length → ciStartsWith z (op.drop k) = false) :
    removeBlocks op cl (a ++ z) = a ++ removeBlocks op cl z := by
  induction a with
  | nil => simp
  | cons c a' ih =>
    have hfalse : ciStartsWith ((c :: a') ++ z) op = false := by
      cases hsw : ciStartsWith ((c :: a') ++ z) op with
      | false => rfl
      | true =>
        rcases le_or_lt op.length (c :: a').length with hle | hlt
        · have := ciContains_of_starts (ciStartsWith_of_append_le hsw hle)
          rw [ha] at this
          exact absurd this (by simp)
        · have h1 := ciStartsWith_of_append_ge hsw (Nat.le_of_lt hlt)
          rw [hz (c :: a').length (by simp) hlt] at h1
          exact absurd h1 (by simp)
    rw [List.cons_append] at hfalse
    have ha' : ciContains a' op = false := by
      rw [ciContains, Bool.or_eq_false_iff] at ha
      exact ha.2
    calc removeBlocks op cl ((c :: a') ++ z)
        = c :: removeBlocks op cl (a' ++ z) := by
          rw [removeBlocks, List.cons_append, List.length_cons,
            removeBlocksF_succ_cons, if_neg (by simp [hfalse])]
          rfl
      _ = (c :: a') ++ removeBlocks op cl z := by rw [ih ha']; rfl

theorem removeBlocks_block {op cl : List Char} (r : List Char) (hop : op ≠ [])
    (hso : selfOverlapFree cl = true) {t : List Char}
    (ht : ciContains t cl = false) :
    removeBlocks op cl (op ++ t ++ cl ++ r) = removeBlocks op cl r := by
  have hshape : op ++ t ++ cl ++ r = op ++ (t ++ (cl ++ r)) := by
    simp [List.append_assoc]
  rw [hshape]
  have hne : op ++ (t ++ (cl ++ r)) ≠ [] := by
    intro hcon
    exact hop (List.append_eq_nil.mp hcon).1
  cases hs : op ++ (t ++ (cl ++ r)) with
  | nil => exact absurd hs hne
  | cons x xs =>
    have hstart : ciStartsWith (x :: xs) op = true := by
      rw [← hs]
      exact ciStartsWith_self_append op _
    have hdrop : (x :: xs).drop op.length = t ++ (cl ++ r) := by
      rw [← hs]
      exact List.drop_left op _
    have hcont : ciContains ((x :: xs).drop op.length) cl = true := by
      rw [hdrop]
      exact ciContains_append_right t
        (ciContains_of_starts (ciStartsWith_self_append cl r))
    rw [removeBlocks, List.length_cons, removeBlocksF_succ_cons,
      if_pos (by rw [hstart, hcont]; rfl), hdrop]
    have hchop : chopToFirst cl (t ++ (cl ++ r)) = r := by
      have := chopToFirst_append r hso ht
      rwa [List.append_assoc] at this
    rw [hchop]
    have hlen : r.length ≤ xs.length := by
      have hlen2 : (op ++ (t ++ (cl ++ r))).length = xs.length + 1 := by
        rw [hs]; simp
      have hop1 : 1 ≤ op.length := List.length_pos.mpr hop
      simp at hlen2
      omega
    rw [removeBlocksF_fuelInv hop cl xs.length r.length r hlen (Nat.le_refl _)]
    rfl

/-! ### Part 5: lemmas on the Sequential Execution Controller -/

theorem finish_outcome (st : CtrlState) (out : RunOutcome)
    (pre : List TraceEvent) : (finish st out pre).outcome = out := rfl

theorem finish_callLog (st : CtrlState) (out : RunOutcome)
    (pre : List TraceEvent) : (finish st out pre).callLog = st.callLog := rfl

theorem finish_trace (st : CtrlState) (out : RunOutcome)
    (pre : List TraceEvent) :
    (finish st out pre).trace = pre ++ [.runTerminated out] := rfl

theorem execCall_fst (cfg : RunConfig) (outs : Nat → ToolOutcome)
    (st : CtrlState) (p : ToolCallProposal) :
    (execCall cfg outs st p).1 =
      [.invokeStart p, .invokeEnd p (outs st.callCount)] := by
  simp only [execCall]
  split
  · rfl
  · split <;> rfl

theorem execCall_callLog (cfg : RunConfig) (outs : Nat → ToolOutcome)
    (st : CtrlState) (p : ToolCallProposal) :
    (execCall cfg outs st p).2.1.callLog =
      st.callLog ++ [⟨p, outs st.callCount⟩] := by
  simp only [execCall]
  split
  · rfl
  · split <;> rfl

theorem execCall_nextSeq (cfg : RunConfig) (outs : Nat → ToolOutcome)
    (st : CtrlState) (p : ToolCallProposal) :
    (execCall cfg outs st p).2.1.nextSeq = st.nextSeq := by
  simp only [execCall]
  split
  · rfl
  · split <;> rfl

theorem stampFrom_seq {q : ToolCallProposal} :
    ∀ (n : Nat) (l : List (String × Args)), q ∈ stampFrom n l → n ≤ q.seq := by
  intro n l
  induction l generalizing n with
  | nil => intro h; simp [stampFrom] at h
  | cons c cs ih =>
    intro h
    rw [stampFrom, List.mem_cons] at h
    rcases h with h | h
    · subst h; simp
    · exact Nat.le_of_succ_le (ih (n + 1) h)

theorem stampFrom_seq_lt {q : ToolCallProposal} :
    ∀ (n : Nat) (l : List (String × Args)),
      q ∈ stampFrom n l → q.seq < n + l.length := by
  intro n l
  induction l generalizing n with
  | nil => intro h; simp [stampFrom] at h
  | cons c cs ih =>
    intro h
    rw [stampFrom, List.mem_cons] at h
    rcases h with h | h
    · subst h; simp
    · have := ih (n + 1) h
      simp only [List.length_cons]
      omega

theorem mem_callsPre {e : TraceEvent} {st : CtrlState} {c : String × Args}
    {cs : List (String × Args)} (h : e ∈ callsPre st c cs) :
    e = .reasoningStarted st.stepIdx ∨ e = .toolProposed (headProp st c) ∨
      ∃ q ∈ stampFrom (st.nextSeq + 1) cs, e = .proposalDiscarded q := by
  simp only [callsPre, List.mem_cons, List.mem_map] at h
  rcases h with h | h | ⟨q, hq, rfl⟩
  · exact Or.inl h
  · exact Or.inr (Or.inl h)
  · exact Or.inr (Or.inr ⟨q, hq, rfl⟩)

/-- Exhaustive case analysis over one controller iteration: every
stepTurn result has one of ten explicit shapes. -/
theorem stepTurn_cases (cfg : RunConfig) (outs : Nat → ToolOutcome)
    (turn : ReasoningTurn) (st : CtrlState) (motive : StepRes → Prop)
    (hA : cfg.cancel = some (.beforeStep st.stepIdx) →
      motive (.halt [] st (.aborted .cancelled)))
    (hB : ∀ t, turn = .answer t →
      motive (.halt [.reasoningStarted st.stepIdx] st (.completed t)))
    (hC : turn = .calls [] → motive (.halt [.reasoningStarted st.stepIdx] st
      (.aborted .reasoningUnavailable)))
    (hD : ∀ c cs, turn = .calls (c :: cs) →
      motive (.halt (callsPre st c cs) (bumpSeq st cs)
      (.aborted .budgetExceeded)))
    (hE : ∀ c cs out, turn = .calls (c :: cs) →
      isMutating c.1 = true → (validate c.1 c.2).pass = true →
      (execCall cfg outs (bumpSeq st cs) (headProp st c)).2.2 = some out →
      motive (.halt (callsPre st c cs ++ [vcEvent st c] ++
          (execCall cfg outs (bumpSeq st cs) (headProp st c)).1)
        (execCall cfg outs (bumpSeq st cs) (headProp st c)).2.1 out))
    (hF : ∀ c cs, turn = .calls (c :: cs) →
      isMutating c.1 = true → (validate c.1 c.2).pass = true →
      motive (.cont (callsPre st c cs ++ [vcEvent st c] ++
          (execCall cfg outs (bumpSeq st cs) (headProp st c)).1)
        (execCall cfg outs (bumpSeq st cs) (headProp st c)).2.1))
    (hG : ∀ c cs, turn = .calls (c :: cs) →
      isMutating c.1 = true → (validate c.1 c.2).pass = false →
      motive (.halt (callsPre st c cs ++ [vcEvent st c])
        (bumpRetry (bumpSeq st cs)) (.aborted .validationBudget)))
    (hH : ∀ c cs, turn = .calls (c :: cs) →
      isMutating c.1 = true → (validate c.1 c.2).pass = false →
      motive (.cont (callsPre st c cs ++ [vcEvent st c])
        (bumpRetry (bumpSeq st cs))))
    (hI : ∀ c cs out, turn = .calls (c :: cs) → isMutating c.1 = false →
      (execCall cfg outs (bumpSeq st cs) (headProp st c)).2.2 = some out →
      motive (.halt (callsPre st c cs ++
          (execCall cfg outs (bumpSeq st cs) (headProp st c)).1)
        (execCall cfg outs (bumpSeq st cs) (headProp st c)).2.1 out))
    (hJ : ∀ c cs, turn = .calls (c :: cs) → isMutating c.1 = false →
      motive (.cont (callsPre st c cs ++
          (execCall cfg outs (bumpSeq st cs) (headProp st c)).1)
        (execCall cfg outs (bumpSeq st cs) (headProp st c)).2.1)) :
    motive (stepTurn cfg outs turn st) := by
  unfold stepTurn
  split
  · exact hA (by assumption)
  · cases turn with
    | answer t => exact hB t rfl
    | calls ps =>
      cases ps with
      | nil => exact hC rfl
      | cons c cs =>
        simp only
        split
        · exact hD c cs rfl
        · split
          · rename_i hmut
            split
            · rename_i hpass
              cases hex : (execCall cfg outs (bumpSeq st cs) (headProp st c)).2.2 with
              | some out => exact hE c cs out rfl hmut hpass hex
              | none => exact hF c cs rfl hmut hpass
            · rename_i hpass
              split
              · exact hG c cs rfl hmut (by simpa using hpass)
              · exact hH c cs rfl hmut (by simpa using hpass)
          · rename_i hmut
            cases hex : (execCall cfg outs (bumpSeq st cs) (headProp st c)).2.2 with
            | some out => exact hI c cs out rfl (by simpa using hmut) hex
            | none => exact hJ c cs rfl (by simpa using hmut)

theorem mem_mutChunk {cfg : RunConfig} {outs : Nat → ToolOutcome}
    {st : CtrlState} {c : String × Args} {cs : List (String × Args)}
    {e : TraceEvent}
    (h : e ∈ callsPre st c cs ++ [vcEvent st c] ++
      (execCall cfg outs (bumpSeq st cs) (headProp st c)).1) :
    e = .reasoningStarted st.stepIdx ∨ e = .toolProposed (headProp st c) ∨
    (∃ q ∈ stampFrom (st.nextSeq + 1) cs, e = .proposalDiscarded q) ∨
    e = .validationCall (headProp st c) (validate c.1 c.2) ∨
    e = .invokeStart (headProp st c) ∨
    e = .invokeEnd (headProp st c) (outs st.callCount) := by
  rw [execCall_fst] at h
  have hcc : (bumpSeq st cs).callCount = st.callCount := rfl
  rw [hcc] at h
  simp only [List.mem_append, List.mem_cons, List.not_mem_nil, or_false] at h
  rcases h with (h | h) | h | h
  · rcases mem_callsPre h with h | h | h
    · tauto
    · tauto
    · exact Or.inr (Or.inr (Or.inl h))
  all_goals tauto

theorem mem_roChunk {cfg : RunConfig} {outs : Nat → ToolOutcome}
    {st : CtrlState} {c : String × Args} {cs : List (String × Args)}
    {e : TraceEvent}
    (h : e ∈ callsPre st c cs ++
      (execCall cfg outs (bumpSeq st cs) (headProp st c)).1) :
    e = .reasoningStarted st.stepIdx ∨ e = .toolProposed (headProp st c) ∨
    (∃ q ∈ stampFrom (st.nextSeq + 1) cs, e = .proposalDiscarded q) ∨
    e = .invokeStart (headProp st c) ∨
    e = .invokeEnd (headProp st c) (outs st.callCount) := by
  rw [execCall_fst] at h
  have hcc : (bumpSeq st cs).callCount = st.callCount := rfl
  rw [hcc] at h
  simp only [List.mem_append, List.mem_cons, List.not_mem_nil, or_false] at h
  rcases h with h | h | h
  · rcases mem_callsPre h with h | h | h
    · tauto
    · tauto
    · exact Or.inr (Or.inr (Or.inl h))
  all_goals tauto

theorem stepTurn_noTerm (cfg : RunConfig) (outs : Nat → ToolOutcome)
    (turn : ReasoningTurn) (st : CtrlState) :
    ∀ e ∈ (stepTurn cfg outs turn st).evs, isTermEvent e = false := by
  refine stepTurn_cases cfg outs turn st
    (fun res => ∀ e ∈ res.evs, isTermEvent e = false)
    ?_ ?_ ?_ ?_ ?_ ?_ ?_ ?_ ?_ ?_
  · intro _ e he; simp [StepRes.evs] at he
  · intro t _ e he
    simp only [StepRes.evs, List.mem_singleton] at he
    subst he; rfl
  · intro _ e he
    simp only [StepRes.evs, List.mem_singleton] at he
    subst he; rfl
  · intro c cs _ e he
    simp only [StepRes.evs] at he
    rcases mem_callsPre he with rfl | rfl | ⟨q, _, rfl⟩ <;> rfl
  · intro c cs out _ _ _ _ e he
    simp only [StepRes.evs] at he
    rcases mem_mutChunk he with rfl | rfl | ⟨q, _, rfl⟩ | rfl | rfl | rfl <;> rfl
  · intro c cs _ _ _ e he
    simp only [StepRes.evs] at he
    rcases mem_mutChunk he with rfl | rfl | ⟨q, _, rfl⟩ | rfl | rfl | rfl <;> rfl
  · intro c cs _ _ _ e he
    simp only [StepRes.evs, List.mem_append, List.mem_singleton] at he
    rcases he with he | rfl
    · rcases mem_callsPre he with rfl | rfl | ⟨q, _, rfl⟩ <;> rfl
    · rfl
  · intro c cs _ _ _ e he
    simp only [StepRes.evs, List.mem_append, List.mem_singleton] at he
    rcases he with he | rfl
    · rcases mem_callsPre he with rfl | rfl | ⟨q, _, rfl⟩ <;> rfl
    · rfl
  · intro c cs out _ _ _ e he
    simp only [StepRes.evs] at he
    rcases mem_roChunk he with rfl | rfl | ⟨q, _, rfl⟩ | rfl | rfl <;> rfl
  · intro c cs _ _ e he
    simp only [StepRes.evs] at he
    rcases mem_roChunk he with rfl | rfl | ⟨q, _, rfl⟩ | rfl | rfl <;> rfl

theorem stepTurn_validation (cfg : RunConfig) (outs : Nat → ToolOutcome)
    (turn : ReasoningTurn) (st : CtrlState) :
    ∀ p r, .validationCall p r ∈ (stepTurn cfg outs turn st).evs →
      r = validate p.name p.args ∧ isMutating p.name = true ∧
        p.seq = st.nextSeq := by
  refine stepTurn_cases cfg outs turn st
    (fun res => ∀ p r, .validationCall p r ∈ res.evs →
      r = validate p.name p.args ∧ isMutating p.name = true ∧
        p.seq = st.nextSeq)
    ?_ ?_ ?_ ?_ ?_ ?_ ?_ ?_ ?_ ?_
  · intro _ p r h; simp [StepRes.evs] at h
  · intro t _ p r h; simp [StepRes.evs] at h
  · intro _ p r h; simp [StepRes.evs] at h
  · intro c cs _ p r h
    simp only [StepRes.evs] at h
    rcases mem_callsPre h with h | h | ⟨q, _, h⟩ <;> simp at h
  · intro c cs out _ hmut _ _ p r h
    simp only [StepRes.evs] at h
    rcases mem_mutChunk h with h | h | ⟨q, _, h⟩ | h | h | h
    all_goals first
      | (injection h with h1 h2; subst h1; subst h2; exact ⟨rfl, hmut, rfl⟩)
      | simp at h
  · intro c cs _ hmut _ p r h
    simp only [StepRes.evs] at h
    rcases mem_mutChunk h with h | h | ⟨q, _, h⟩ | h | h | h
    all_goals first
      | (injection h with h1 h2; subst h1; subst h2; exact ⟨rfl, hmut, rfl⟩)
      | simp at h
  · intro c cs _ hmut _ p r h
    simp only [StepRes.evs, List.mem_append, List.mem_singleton] at h
    rcases h with h | h
    · rcases mem_callsPre h with h | h | ⟨q, _, h⟩ <;> simp at h
    · injection h with h1 h2; subst h1; subst h2; exact ⟨rfl, hmut, rfl⟩
  · intro c cs _ hmut _ p r h
    simp only [StepRes.evs, List.mem_append, List.mem_singleton] at h
    rcases h with h | h
    · rcases mem_callsPre h with h | h | ⟨q, _, h⟩ <;> simp at h
    · injection h with h1 h2; subst h1; subst h2; exact ⟨rfl, hmut, rfl⟩
  · intro c cs out _ _ _ p r h
    simp only [StepRes.evs] at h
    rcases mem_roChunk h with h | h | ⟨q, _, h⟩ | h | h <;> simp at h
  · intro c cs _ _ p r h
    simp only [StepRes.evs] at h
    rcases mem_roChunk h with h | h | ⟨q, _, h⟩ | h | h <;> simp at h

theorem stepTurn_start (cfg : RunConfig) (outs : Nat → ToolOutcome)
    (turn : ReasoningTurn) (st : CtrlState) :
    ∀ p, .invokeStart p ∈ (stepTurn cfg outs turn st).evs →
      p.seq = st.nextSeq ∧
        (isMutating p.name = true → (validate p.name p.args).pass = true) := by
  refine stepTurn_cases cfg outs turn st
    (fun res => ∀ p, .invokeStart p ∈ res.evs →
      p.seq = st.nextSeq ∧
        (isMutating p.name = true → (validate p.name p.args).pass = true))
    ?_ ?_ ?_ ?_ ?_ ?_ ?_ ?_ ?_ ?_
  · intro _ p h; simp [StepRes.evs] at h
  · intro t _ p h; simp [StepRes.evs] at h
  · intro _ p h; simp [StepRes.evs] at h
  · intro c cs _ p h
    simp only [StepRes.evs] at h
    rcases mem_callsPre h with h | h | ⟨q, _, h⟩ <;> simp at h
  · intro c cs out _ _ hpass _ p h
    simp only [StepRes.evs] at h
    rcases mem_mutChunk h with h | h | ⟨q, _, h⟩ | h | h | h
    all_goals first
      | (injection h with h1; subst h1; exact ⟨rfl, fun _ => hpass⟩)
      | simp at h
  · intro c cs _ _ hpass p h
    simp only [StepRes.evs] at h
    rcases mem_mutChunk h with h | h | ⟨q, _, h⟩ | h | h | h
    all_goals first
      | (injection h with h1; subst h1; exact ⟨rfl, fun _ => hpass⟩)
      | simp at h
  · intro c cs _ _ _ p h
    simp only [StepRes.evs, List.mem_append, List.mem_singleton] at h
    rcases h with h | h
    · rcases mem_callsPre h with h | h | ⟨q, _, h⟩ <;> simp at h
    · simp [vcEvent] at h
  · intro c cs _ _ _ p h
    simp only [StepRes.evs, List.mem_append, List.mem_singleton] at h
    rcases h with h | h
    · rcases mem_callsPre h with h | h | ⟨q, _, h⟩ <;> simp at h
    · simp [vcEvent] at h
  · intro c cs out _ hmut _ p h
    simp only [StepRes.evs] at h
    rcases mem_roChunk h with h | h | ⟨q, _, h⟩ | h | h
    all_goals first
      | (injection h with h1; subst h1;
         exact ⟨rfl, fun hm => absurd hm (by simp [headProp, hmut])⟩)
      | simp at h
  · intro c cs _ hmut p h
    simp only [StepRes.evs] at h
    rcases mem_roChunk h with h | h | ⟨q, _, h⟩ | h | h
    all_goals first
      | (injection h with h1; subst h1;
         exact ⟨rfl, fun hm => absurd hm (by simp [headProp, hmut])⟩)
      | simp at h

theorem stepTurn_end (cfg : RunConfig) (outs : Nat → ToolOutcome)
    (turn : ReasoningTurn) (st : CtrlState) :
    ∀ p o, .invokeEnd p o ∈ (stepTurn cfg outs turn st).evs →
      p.seq = st.nextSeq ∧
        (⟨p, o⟩ : ToolCallRecord) ∈ (stepTurn cfg outs turn st).state.callLog := by
  refine stepTurn_cases cfg outs turn st
    (fun res => ∀ p o, .invokeEnd p o ∈ res.evs →
      p.seq = st.nextSeq ∧ (⟨p, o⟩ : ToolCallRecord) ∈ res.state.callLog)
    ?_ ?_ ?_ ?_ ?_ ?_ ?_ ?_ ?_ ?_
  · intro _ p o h; simp [StepRes.evs] at h
  · intro t _ p o h; simp [StepRes.evs] at h
  · intro _ p o h; simp [StepRes.evs] at h
  · intro c cs _ p o h
    simp only [StepRes.evs] at h
    rcases mem_callsPre h with h | h | ⟨q, _, h⟩ <;> simp at h
  · intro c cs out _ _ _ _ p o h
    simp only [StepRes.evs] at h
    rcases mem_mutChunk h with h | h | ⟨q, _, h⟩ | h | h | h
    all_goals first
      | (injection h with h1 h2; subst h1; subst h2;
         refine ⟨rfl, ?_⟩
         simp only [StepRes.state, execCall_callLog]
         exact List.mem_append_right _ (List.mem_singleton.mpr rfl))
      | simp at h
  · intro c cs _ _ _ p o h
    simp only [StepRes.evs] at h
    rcases mem_mutChunk h with h | h | ⟨q, _, h⟩ | h | h | h
    all_goals first
      | (injection h with h1 h2; subst h1; subst h2;
         refine ⟨rfl, ?_⟩
         simp only [StepRes.state, execCall_callLog]
         exact List.mem_append_right _ (List.mem_singleton.mpr rfl))
      | simp at h
  · intro c cs _ _ _ p o h
    simp only [StepRes.evs, List.mem_append, List.mem_singleton] at h
    rcases h with h | h
    · rcases mem_callsPre h with h | h | ⟨q, _, h⟩ <;> simp at h
    · simp [vcEvent] at h
  · intro c cs _ _ _ p o h
    simp only [StepRes.evs, List.mem_append, List.mem_singleton] at h
    rcases h with h | h
    · rcases mem_callsPre h with h | h | ⟨q, _, h⟩ <;> simp at h
    · simp [vcEvent] at h
  · intro c cs out _ _ _ p o h
    simp only [StepRes.evs] at h
    rcases mem_roChunk h with h | h | ⟨q, _, h⟩ | h | h
    all_goals first
      | (injection h with h1 h2; subst h1; subst h2;
         refine ⟨rfl, ?_⟩
         simp only [StepRes.state, execCall_callLog]
         exact List.mem_append_right _ (List.mem_singleton.mpr rfl))
      | simp at h
  · intro c cs _ _ p o h
    simp only [StepRes.evs] at h
    rcases mem_roChunk h with h | h | ⟨q, _, h⟩ | h | h
    all_goals first
      | (injection h with h1 h2; subst h1; subst h2;
         refine ⟨rfl, ?_⟩
         simp only [StepRes.state, execCall_callLog]
         exact List.mem_append_right _ (List.mem_singleton.mpr rfl))
      | simp at h

theorem stepTurn_discarded (cfg : RunConfig) (outs : Nat → ToolOutcome)
    (turn : ReasoningTurn) (st : CtrlState) :
    ∀ p, .proposalDiscarded p ∈ (stepTurn cfg outs turn st).evs →
      st.nextSeq < p.seq := by
  refine stepTurn_cases cfg outs turn st
    (fun res => ∀ p, .proposalDiscarded p ∈ res.evs → st.nextSeq < p.seq)
    ?_ ?_ ?_ ?_ ?_ ?_ ?_ ?_ ?_ ?_
  · intro _ p h; simp [StepRes.evs] at h
  · intro t _ p h; simp [StepRes.evs] at h
  · intro _ p h; simp [StepRes.evs] at h
  · intro c cs _ p h
    simp only [StepRes.evs] at h
    rcases mem_callsPre h with h | h | ⟨q, hq, h⟩
    · simp at h
    · simp at h
    · injection h with h1; subst h1
      exact Nat.lt_of_succ_le (stampFrom_seq (st.nextSeq + 1) cs hq)
  · intro c cs out _ _ _ _ p h
    simp only [StepRes.evs] at h
    rcases mem_mutChunk h with h | h | ⟨q, hq, h⟩ | h | h | h
    all_goals first
      | (injection h with h1; subst h1;
         exact Nat.lt_of_succ_le (stampFrom_seq (st.nextSeq + 1) cs hq))
      | simp at h
  · intro c cs _ _ _ p h
    simp only [StepRes.evs] at h
    rcases mem_mutChunk h with h | h | ⟨q, hq, h⟩ | h | h | h
    all_goals first
      | (injection h with h1; subst h1;
         exact Nat.lt_of_succ_le (stampFrom_seq (st.nextSeq + 1) cs hq))
      | simp at h
  · intro c cs _ _ _ p h
    simp only [StepRes.evs, List.mem_append, List.mem_singleton] at h
    rcases h with h | h
    · rcases mem_callsPre h with h | h | ⟨q, hq, h⟩
      · simp at h
      · simp at h
      · injection h with h1; subst h1
        exact Nat.lt_of_succ_le (stampFrom_seq (st.nextSeq + 1) cs hq)
    · simp [vcEvent] at h
  · intro c cs _ _ _ p h
    simp only [StepRes.evs, List.mem_append, List.mem_singleton] at h
    rcases h with h | h
    · rcases mem_callsPre h with h | h | ⟨q, hq, h⟩
      · simp at h
      · simp at h
      · injection h with h1; subst h1
        exact Nat.lt_of_succ_le (stampFrom_seq (st.nextSeq + 1) cs hq)
    · simp [vcEvent] at h
  · intro c cs out _ _ _ p h
    simp only [StepRes.evs] at h
    rcases mem_roChunk h with h | h | ⟨q, hq, h⟩ | h | h
    all_goals first
      | (injection h with h1; subst h1;
         exact Nat.lt_of_succ_le (stampFrom_seq (st.nextSeq + 1) cs hq))
      | simp at h
  · intro c cs _ _ p h
    simp only [StepRes.evs] at h
    rcases mem_roChunk h with h | h | ⟨q, hq, h⟩ | h | h
    all_goals first
      | (injection h with h1; subst h1;
         exact Nat.lt_of_succ_le (stampFrom_seq (st.nextSeq + 1) cs hq))
      | simp at h

theorem stepTurn_nextSeq_mono (cfg : RunConfig) (outs : Nat → ToolOutcome)
    (turn : ReasoningTurn) (st : CtrlState) :
    st.nextSeq ≤ (stepTurn cfg outs turn st).state.nextSeq := by
  refine stepTurn_cases cfg outs turn st
    (fun res => st.nextSeq ≤ res.state.nextSeq)
    ?_ ?_ ?_ ?_ ?_ ?_ ?_ ?_ ?_ ?_
  · intro _; exact Nat.le_refl _
  · intro t _; exact Nat.le_refl _
  · intro _; exact Nat.le_refl _
  · intro c cs _; simp [StepRes.state, bumpSeq]; omega
  · intro c cs out _ _ _ _
    simp only [StepRes.state, execCall_nextSeq, bumpSeq]
    omega
  · intro c cs _ _ _
    simp only [StepRes.state, execCall_nextSeq, bumpSeq]
    omega
  · intro c cs _ _ _; simp [StepRes.state, bumpRetry, bumpSeq]; omega
  · intro c cs _ _ _; simp [StepRes.state, bumpRetry, bumpSeq]; omega
  · intro c cs out _ _ _
    simp only [StepRes.state, execCall_nextSeq, bumpSeq]
    omega
  · intro c cs _ _
    simp only [StepRes.state, execCall_nextSeq, bumpSeq]
    omega

theorem headProp_seq (st : CtrlState) (c : String × Args) :
    (headProp st c).seq = st.nextSeq := rfl

theorem stepTurn_seq_ub (cfg : RunConfig) (outs : Nat → ToolOutcome)
    (turn : ReasoningTurn) (st : CtrlState) :
    ∀ e ∈ (stepTurn cfg outs turn st).evs, ∀ p, eventProposal e = some p →
      st.nextSeq ≤ p.seq ∧ p.seq < (stepTurn cfg outs turn st).state.nextSeq := by
  have hhead : ∀ c cs (p : ToolCallProposal), headProp st c = p →
      st.nextSeq ≤ p.seq ∧ p.seq < st.nextSeq + 1 + (cs : List (String × Args)).length := by
    intro c cs p hp
    subst hp
    rw [headProp_seq]
    omega
  have hdisc : ∀ (q p : ToolCallProposal) cs, q ∈ stampFrom (st.nextSeq + 1) cs →
      q = p → st.nextSeq ≤ p.seq ∧ p.seq < st.nextSeq + 1 + cs.length := by
    intro q p cs hq hp
    subst hp
    have h1 := stampFrom_seq (st.nextSeq + 1) cs hq
    have h2 := stampFrom_seq_lt (st.nextSeq + 1) cs hq
    omega
  refine stepTurn_cases cfg outs turn st
    (fun res => ∀ e ∈ res.evs, ∀ p, eventProposal e = some p →
      st.nextSeq ≤ p.seq ∧ p.seq < res.state.nextSeq)
    ?_ ?_ ?_ ?_ ?_ ?_ ?_ ?_ ?_ ?_
  · intro _ e he; simp [StepRes.evs] at he
  · intro t _ e he p hp
    simp only [StepRes.evs, List.mem_singleton] at he
    subst he; simp [eventProposal] at hp
  · intro _ e he p hp
    simp only [StepRes.evs, List.mem_singleton] at he
    subst he; simp [eventProposal] at hp
  · intro c cs _ e he p hp
    simp only [StepRes.evs] at he
    have hst : (StepRes.halt (callsPre st c cs) (bumpSeq st cs)
        (RunOutcome.aborted AbortReason.budgetExceeded)).state.nextSeq =
        st.nextSeq + 1 + cs.length := rfl
    rw [hst]
    rcases mem_callsPre he with rfl | rfl | ⟨q, hq, rfl⟩
    · simp [eventProposal] at hp
    · simp only [eventProposal, Option.some_inj] at hp
      exact hhead c cs p hp
    · simp only [eventProposal, Option.some_inj] at hp
      exact hdisc q p cs hq hp
  · intro c cs out _ _ _ _ e he p hp
    simp only [StepRes.evs] at he
    have hst : (StepRes.halt (callsPre st c cs ++ [vcEvent st c] ++
        (execCall cfg outs (bumpSeq st cs) (headProp st c)).1)
        (execCall cfg outs (bumpSeq st cs) (headProp st c)).2.1 out).state.nextSeq =
        st.nextSeq + 1 + cs.length := by
      simp only [StepRes.state, execCall_nextSeq]; rfl
    rw [hst]
    rcases mem_mutChunk he with rfl | rfl | ⟨q, hq, rfl⟩ | rfl | rfl | rfl
    · simp [eventProposal] at hp
    · simp only [eventProposal, Option.some_inj] at hp
      exact hhead c cs p hp
    · simp only [eventProposal, Option.some_inj] at hp
      exact hdisc q p cs hq hp
    · simp only [eventProposal, Option.some_inj] at hp
      exact hhead c cs p hp
    · simp only [eventProposal, Option.some_inj] at hp
      exact hhead c cs p hp
    · simp only [eventProposal, Option.some_inj] at hp
      exact hhead c cs p hp
  · intro c cs _ _ _ e he p hp
    simp only [StepRes.evs] at he
    have hst : (StepRes.cont (callsPre st c cs ++ [vcEvent st c] ++
        (execCall cfg outs (bumpSeq st cs) (headProp st c)).1)
        (execCall cfg outs (bumpSeq st cs) (headProp st c)).2.1).state.nextSeq =
        st.nextSeq + 1 + cs.length := by
      simp only [StepRes.state, execCall_nextSeq]; rfl
    rw [hst]
    rcases mem_mutChunk he with rfl | rfl | ⟨q, hq, rfl⟩ | rfl | rfl | rfl
    · simp [eventProposal] at hp
    · simp only [eventProposal, Option.some_inj] at hp
      exact hhead c cs p hp
    · simp only [eventProposal, Option.some_inj] at hp
      exact hdisc q p cs hq hp
    · simp only [eventProposal, Option.some_inj] at hp
      exact hhead c cs p hp
    · simp only [eventProposal, Option.some_inj] at hp
      exact hhead c cs p hp
    · simp only [eventProposal, Option.some_inj] at hp
      exact hhead c cs p hp
  · intro c cs _ _ _ e he p hp
    simp only [StepRes.evs, List.mem_append, List.mem_singleton] at he
    have hst : (StepRes.halt (callsPre st c cs ++ [vcEvent st c])
        (bumpRetry (bumpSeq st cs))
        (RunOutcome.aborted AbortReason.validationBudget)).state.nextSeq =
        st.nextSeq + 1 + cs.length := rfl
    rw [hst]
    rcases he with he | rfl
    · rcases mem_callsPre he with rfl | rfl | ⟨q, hq, rfl⟩
      · simp [eventProposal] at hp
      · simp only [eventProposal, Option.some_inj] at hp
        exact hhead c cs p hp
      · simp only [eventProposal, Option.some_inj] at hp
        exact hdisc q p cs hq hp
    · simp only [vcEvent, eventProposal, Option.some_inj] at hp
      exact hhead c cs p hp
  · intro c cs _ _ _ e he p hp
    simp only [StepRes.evs, List.mem_append, List.mem_singleton] at he
    have hst : (StepRes.cont (callsPre st c cs ++ [vcEvent st c])
        (bumpRetry (bumpSeq st cs))).state.nextSeq =
        st.nextSeq + 1 + cs.length := rfl
    rw [hst]
    rcases he with he | rfl
    · rcases mem_callsPre he with rfl | rfl | ⟨q, hq, rfl⟩
      · simp [eventProposal] at hp
      · simp only [eventProposal, Option.some_inj] at hp
        exact hhead c cs p hp
      · simp only [eventProposal, Option.some_inj] at hp
        exact hdisc q p cs hq hp
    · simp only [vcEvent, eventProposal, Option.some_inj] at hp
      exact hhead c cs p hp
  · intro c cs out _ _ _ e he p hp
    simp only [StepRes.evs] at he
    have hst : (StepRes.halt (callsPre st c cs ++
        (execCall cfg outs (bumpSeq st cs) (headProp st c)).1)
        (execCall cfg outs (bumpSeq st cs) (headProp st c)).2.1 out).state.nextSeq =
        st.nextSeq + 1 + cs.length := by
      simp only [StepRes.state, execCall_nextSeq]; rfl
    rw [hst]
    rcases mem_roChunk he with rfl | rfl | ⟨q, hq, rfl⟩ | rfl | rfl
    · simp [eventProposal] at hp
    · simp only [eventProposal, Option.some_inj] at hp
      exact hhead c cs p hp
    · simp only [eventProposal, Option.some_inj] at hp
      exact hdisc q p cs hq hp
    · simp only [eventProposal, Option.some_inj] at hp
      exact hhead c cs p hp
    · simp only [eventProposal, Option.some_inj] at hp
      exact hhead c cs p hp
  · intro c cs _ _ e he p hp
    simp only [StepRes.evs] at he
    have hst : (StepRes.cont (callsPre st c cs ++
        (execCall cfg outs (bumpSeq st cs) (headProp st c)).1)
        (execCall cfg outs (bumpSeq st cs) (headProp st c)).2.1).state.nextSeq =
        st.nextSeq + 1 + cs.length := by
      simp only [StepRes.state, execCall_nextSeq]; rfl
    rw [hst]
    rcases mem_roChunk he with rfl | rfl | ⟨q, hq, rfl⟩ | rfl | rfl
    · simp [eventProposal] at hp
    · simp only [eventProposal, Option.some_inj] at hp
      exact hhead c cs p hp
    · simp only [eventProposal, Option.some_inj] at hp
      exact hdisc q p cs hq hp
    · simp only [eventProposal, Option.some_inj] at hp
      exact hhead c cs p hp
    · simp only [eventProposal, Option.some_inj] at hp
      exact hhead c cs p hp

theorem stepTurn_callLog_mono (cfg : RunConfig) (outs : Nat → ToolOutcome)
    (turn : ReasoningTurn) (st : CtrlState) :
    ∀ x ∈ st.callLog, x ∈ (stepTurn cfg outs turn st).state.callLog := by
  refine stepTurn_cases cfg outs turn st
    (fun res => ∀ x ∈ st.callLog, x ∈ res.state.callLog)
    ?_ ?_ ?_ ?_ ?_ ?_ ?_ ?_ ?_ ?_
  · intro _ x hx; exact hx
  · intro t _ x hx; exact hx
  · intro _ x hx; exact hx
  · intro c cs _ x hx; exact hx
  · intro c cs out _ _ _ _ x hx
    simp only [StepRes.state, execCall_callLog]
    exact List.mem_append_left _ hx
  · intro c cs _ _ _ x hx
    simp only [StepRes.state, execCall_callLog]
    exact List.mem_append_left _ hx
  · intro c cs _ _ _ x hx; exact hx
  · intro c cs _ _ _ x hx; exact hx
  · intro c cs out _ _ _ x hx
    simp only [StepRes.state, execCall_callLog]
    exact List.mem_append_left _ hx
  · intro c cs _ _ x hx
    simp only [StepRes.state, execCall_callLog]
    exact List.mem_append_left _ hx

theorem stepTurn_callLog_src (cfg : RunConfig) (outs : Nat → ToolOutcome)
    (turn : ReasoningTurn) (st : CtrlState) :
    ∀ x ∈ (stepTurn cfg outs turn st).state.callLog,
      x ∈ st.callLog ∨
        .invokeEnd x.call x.outcome ∈ (stepTurn cfg outs turn st).evs := by
  refine stepTurn_cases cfg outs turn st
    (fun res => ∀ x ∈ res.state.callLog,
      x ∈ st.callLog ∨ .invokeEnd x.call x.outcome ∈ res.evs)
    ?_ ?_ ?_ ?_ ?_ ?_ ?_ ?_ ?_ ?_
  · intro _ x hx; exact Or.inl hx
  · intro t _ x hx; exact Or.inl hx
  · intro _ x hx; exact Or.inl hx
  · intro c cs _ x hx; exact Or.inl hx
  · intro c cs out _ _ _ _ x hx
    simp only [StepRes.state, execCall_callLog] at hx
    rcases List.mem_append.mp hx with hx | hx
    · exact Or.inl hx
    · rw [List.mem_singleton] at hx
      subst hx
      refine Or.inr ?_
      simp only [StepRes.evs, execCall_fst]
      simp
  · intro c cs _ _ _ x hx
    simp only [StepRes.state, execCall_callLog] at hx
    rcases List.mem_append.mp hx with hx | hx
    · exact Or.inl hx
    · rw [List.mem_singleton] at hx
      subst hx
      refine Or.inr ?_
      simp only [StepRes.evs, execCall_fst]
      simp
  · intro c cs _ _ _ x hx; exact Or.inl hx
  · intro c cs _ _ _ x hx; exact Or.inl hx
  · intro c cs out _ _ _ x hx
    simp only [StepRes.state, execCall_callLog] at hx
    rcases List.mem_append.mp hx with hx | hx
    · exact Or.inl hx
    · rw [List.mem_singleton] at hx
      subst hx
      refine Or.inr ?_
      simp only [StepRes.evs, execCall_fst]
      simp
  · intro c cs _ _ x hx
    simp only [StepRes.state, execCall_callLog] at hx
    rcases List.mem_append.mp hx with hx | hx
    · exact Or.inl hx
    · rw [List.mem_singleton] at hx
      subst hx
      refine Or.inr ?_
      simp only [StepRes.evs, execCall_fst]
      simp

theorem gateFrom_append : ∀ (xs ys : List TraceEvent) (prev : TraceEvent),
    gateFrom prev (xs ++ ys) =
      (gateFrom prev xs && gateFrom (xs.getLastD prev) ys) := by
  intro xs
  induction xs with
  | nil => intro ys prev; simp [gateFrom]
  | cons x xs ih =>
    intro ys prev
    simp only [List.cons_append, gateFrom, List.getLastD_cons, List.append_eq,
      ih, Bool.and_assoc]

theorem gateFrom_discards (ds : List ToolCallProposal) :
    ∀ prev, gateFrom prev (ds.map .proposalDiscarded) = true := by
  induction ds with
  | nil => intro prev; rfl
  | cons d ds ih => intro prev; simp [gateFrom, gateStep, ih]

theorem gateFrom_callsPre (st : CtrlState) (c : String × Args)
    (cs : List (String × Args)) :
    ∀ prev, gateFrom prev (callsPre st c cs) = true := by
  intro prev
  simp [callsPre, gateFrom, gateStep, gateFrom_discards]

theorem stepTurn_gate (cfg : RunConfig) (outs : Nat → ToolOutcome)
    (turn : ReasoningTurn) (st : CtrlState) :
    ∀ prev, gateFrom prev (stepTurn cfg outs turn st).evs = true := by
  refine stepTurn_cases cfg outs turn st
    (fun res => ∀ prev, gateFrom prev res.evs = true)
    ?_ ?_ ?_ ?_ ?_ ?_ ?_ ?_ ?_ ?_
  · intro _ prev; rfl
  · intro t _ prev; simp [StepRes.evs, gateFrom, gateStep]
  · intro _ prev; simp [StepRes.evs, gateFrom, gateStep]
  · intro c cs _ prev
    simp only [StepRes.evs]
    exact gateFrom_callsPre st c cs prev
  · intro c cs out _ hmut hpass _ prev
    simp only [StepRes.evs, execCall_fst]
    rw [gateFrom_append, gateFrom_append, List.getLastD_concat,
      gateFrom_callsPre]
    simp [gateFrom, gateStep, vcEvent, headProp, hmut, hpass]
  · intro c cs _ hmut hpass prev
    simp only [StepRes.evs, execCall_fst]
    rw [gateFrom_append, gateFrom_append, List.getLastD_concat,
      gateFrom_callsPre]
    simp [gateFrom, gateStep, vcEvent, headProp, hmut, hpass]
  · intro c cs _ _ _ prev
    simp only [StepRes.evs]
    rw [gateFrom_append, gateFrom_callsPre]
    simp [gateFrom, gateStep, vcEvent]
  · intro c cs _ _ _ prev
    simp only [StepRes.evs]
    rw [gateFrom_append, gateFrom_callsPre]
    simp [gateFrom, gateStep, vcEvent]
  · intro c cs out _ hro _ prev
    simp only [StepRes.evs, execCall_fst]
    rw [gateFrom_append, gateFrom_callsPre]
    simp [gateFrom, gateStep, headProp, hro]
  · intro c cs _ hro prev
    simp only [StepRes.evs, execCall_fst]
    rw [gateFrom_append, gateFrom_callsPre]
    simp [gateFrom, gateStep, headProp, hro]

theorem seScan_skip {e : TraceEvent} (h : isInvokeEvent e = false)
    (l : List TraceEvent) : seScan none (e :: l) = seScan none l := by
  cases e <;> first
    | rfl
    | simp [isInvokeEvent] at h

theorem seScan_append_noninvoke :
    ∀ (A : List TraceEvent), (∀ e ∈ A, isInvokeEvent e = false) →
      ∀ l, seScan none (A ++ l) = seScan none l := by
  intro A
  induction A with
  | nil => intro _ l; rfl
  | cons e A ih =>
    intro hA l
    rw [List.cons_append, seScan_skip (hA e (List.mem_cons_self e A))]
    exact ih (fun x hx => hA x (List.mem_cons_of_mem e hx)) l

theorem seScan_startend (p : ToolCallProposal) (o : ToolOutcome)
    (l : List TraceEvent) :
    seScan none (.invokeStart p :: .invokeEnd p o :: l) = seScan none l := by
  simp [seScan]

theorem callsPre_noninvoke (st : CtrlState) (c : String × Args)
    (cs : List (String × Args)) :
    ∀ e ∈ callsPre st c cs, isInvokeEvent e = false := by
  intro e he
  rcases mem_callsPre he with rfl | rfl | ⟨q, _, rfl⟩ <;> rfl

theorem vc_noninvoke (st : CtrlState) (c : String × Args)
    (cs : List (String × Args)) :
    ∀ e ∈ callsPre st c cs ++ [vcEvent st c], isInvokeEvent e = false := by
  intro e he
  rcases List.mem_append.mp he with he | he
  · exact callsPre_noninvoke st c cs e he
  · rw [List.mem_singleton] at he
    subst he
    rfl

theorem stepTurn_se (cfg : RunConfig) (outs : Nat → ToolOutcome)
    (turn : ReasoningTurn) (st : CtrlState) :
    ∀ l, seScan none l = true →
      seScan none ((stepTurn cfg outs turn st).evs ++ l) = true := by
  refine stepTurn_cases cfg outs turn st
    (fun res => ∀ l, seScan none l = true → seScan none (res.evs ++ l) = true)
    ?_ ?_ ?_ ?_ ?_ ?_ ?_ ?_ ?_ ?_
  · intro _ l hl; exact hl
  · intro t _ l hl
    simpa [StepRes.evs, seScan] using hl
  · intro _ l hl
    simpa [StepRes.evs, seScan] using hl
  · intro c cs _ l hl
    simp only [StepRes.evs]
    rw [seScan_append_noninvoke _ (callsPre_noninvoke st c cs) l]
    exact hl
  · intro c cs out _ _ _ _ l hl
    simp only [StepRes.evs, execCall_fst]
    rw [List.append_assoc, List.append_assoc,
      seScan_append_noninvoke _ (callsPre_noninvoke st c cs)]
    rw [seScan_append_noninvoke _ (by
      intro e he
      rw [List.mem_singleton] at he
      subst he
      rfl)]
    rw [List.cons_append, List.cons_append, List.nil_append, seScan_startend]
    exact hl
  · intro c cs _ _ _ l hl
    simp only [StepRes.evs, execCall_fst]
    rw [List.append_assoc, List.append_assoc,
      seScan_append_noninvoke _ (callsPre_noninvoke st c cs)]
    rw [seScan_append_noninvoke _ (by
      intro e he
      rw [List.mem_singleton] at he
      subst he
      rfl)]
    rw [List.cons_append, List.cons_append, List.nil_append, seScan_startend]
    exact hl
  · intro c cs _ _ _ l hl
    simp only [StepRes.evs]
    rw [seScan_append_noninvoke _ (vc_noninvoke st c cs) l]
    exact hl
  · intro c cs _ _ _ l hl
    simp only [StepRes.evs]
    rw [seScan_append_noninvoke _ (vc_noninvoke st c cs) l]
    exact hl
  · intro c cs out _ _ _ l hl
    simp only [StepRes.evs, execCall_fst]
    rw [List.append_assoc,
      seScan_append_noninvoke _ (callsPre_noninvoke st c cs)]
    rw [List.cons_append, List.cons_append, List.nil_append, seScan_startend]
    exact hl
  · intro c cs _ _ l hl
    simp only [StepRes.evs, execCall_fst]
    rw [List.append_assoc,
      seScan_append_noninvoke _ (callsPre_noninvoke st c cs)]
    rw [List.cons_append, List.cons_append, List.nil_append, seScan_startend]
    exact hl

theorem stepTurn_cancel_shape (cfg : RunConfig) (outs : Nat → ToolOutcome)
    (turn : ReasoningTurn) (st : CtrlState) (n : Nat)
    (hdc : cfg.cancel = some (.duringCall n)) :
    ∀ evs st' out, stepTurn cfg outs turn st = .halt evs st' out →
      out = .aborted .cancelled →
      ∃ body q o, evs = body ++ [.invokeEnd q o] ∧
        (⟨q, o⟩ : ToolCallRecord) ∈ st'.callLog := by
  refine stepTurn_cases cfg outs turn st
    (fun res => ∀ evs st' out, res = .halt evs st' out →
      out = .aborted .cancelled →
      ∃ body q o, evs = body ++ [.invokeEnd q o] ∧
        (⟨q, o⟩ : ToolCallRecord) ∈ st'.callLog)
    ?_ ?_ ?_ ?_ ?_ ?_ ?_ ?_ ?_ ?_
  · intro hbs
    rw [hdc] at hbs
    simp at hbs
  · intro t _ evs st' out heq hout
    injection heq with h1 h2 h3
    rw [hout] at h3
    simp at h3
  · intro _ evs st' out heq hout
    injection heq with h1 h2 h3
    rw [hout] at h3
    simp at h3
  · intro c cs _ evs st' out heq hout
    injection heq with h1 h2 h3
    rw [hout] at h3
    simp at h3
  · intro c cs out0 _ _ _ _ evs st' out heq _
    injection heq with h1 h2 h3
    subst h1
    subst h2
    rw [execCall_fst]
    refine ⟨callsPre st c cs ++ [vcEvent st c] ++
      [.invokeStart (headProp st c)], headProp st c,
      outs (bumpSeq st cs).callCount, ?_, ?_⟩
    · simp [List.append_assoc]
    · rw [execCall_callLog]
      exact List.mem_append_right _ (List.mem_singleton.mpr rfl)
  · intro c cs _ _ _ evs st' out heq _
    simp at heq
  · intro c cs _ _ _ evs st' out heq hout
    injection heq with h1 h2 h3
    rw [hout] at h3
    simp at h3
  · intro c cs _ _ _ evs st' out heq _
    simp at heq
  · intro c cs out0 _ _ _ evs st' out heq _
    injection heq with h1 h2 h3
    subst h1
    subst h2
    rw [execCall_fst]
    refine ⟨callsPre st c cs ++ [.invokeStart (headProp st c)], headProp st c,
      outs (bumpSeq st cs).callCount, ?_, ?_⟩
    · simp [List.append_assoc]
    · rw [execCall_callLog]
      exact List.mem_append_right _ (List.mem_singleton.mpr rfl)
  · intro c cs _ _ evs st' out heq _
    simp at heq

theorem stepTurn_prefix (cfg : RunConfig) (outs : Nat → ToolOutcome)
    (st : CtrlState) (c : String × Args) (cs : List (String × Args))
    (hnc : cfg.cancel ≠ some (.beforeStep st.stepIdx)) :
    ∃ tail, (stepTurn cfg outs (.calls (c :: cs)) st).evs =
      callsPre st c cs ++ tail := by
  refine stepTurn_cases cfg outs (.calls (c :: cs)) st
    (fun res => ∃ tail, res.evs = callsPre st c cs ++ tail)
    ?_ ?_ ?_ ?_ ?_ ?_ ?_ ?_ ?_ ?_
  · intro hbs; exact absurd hbs hnc
  · intro t ht; simp at ht
  · intro ht; simp at ht
  · intro c' cs' ht
    injection ht with ht
    injection ht with h1 h2
    subst h1; subst h2
    exact ⟨[], by simp [StepRes.evs]⟩
  · intro c' cs' out ht _ _ _
    injection ht with ht
    injection ht with h1 h2
    subst h1; subst h2
    exact ⟨_, by show _ ++ _ ++ _ = _; rw [List.append_assoc]⟩
  · intro c' cs' ht _ _
    injection ht with ht
    injection ht with h1 h2
    subst h1; subst h2
    exact ⟨_, by show _ ++ _ ++ _ = _; rw [List.append_assoc]⟩
  · intro c' cs' ht _ _
    injection ht with ht
    injection ht with h1 h2
    subst h1; subst h2
    exact ⟨[vcEvent st c], rfl⟩
  · intro c' cs' ht _ _
    injection ht with ht
    injection ht with h1 h2
    subst h1; subst h2
    exact ⟨[vcEvent st c], rfl⟩
  · intro c' cs' out ht _ _
    injection ht with ht
    injection ht with h1 h2
    subst h1; subst h2
    exact ⟨_, rfl⟩
  · intro c' cs' ht _
    injection ht with ht
    injection ht with h1 h2
    subst h1; subst h2
    exact ⟨_, rfl⟩

theorem runAux_nil (cfg : RunConfig) (outs : Nat → ToolOutcome)
    (st : CtrlState) :
    runAux cfg outs [] st = finish st (.aborted .reasoningUnavailable) [] := rfl

theorem runAux_cons (cfg : RunConfig) (outs : Nat → ToolOutcome)
    (turn : ReasoningTurn) (rest : List ReasoningTurn) (st : CtrlState) :
    runAux cfg outs (turn :: rest) st =
      match stepTurn cfg outs turn st with
      | .halt evs st' out => finish st' out evs
      | .cont evs st' =>
        { runAux cfg outs rest st' with
          trace := evs ++ (runAux cfg outs rest st').trace } := rfl

theorem runAux_terminal (cfg : RunConfig) (outs : Nat → ToolOutcome) :
    ∀ (turns : List ReasoningTurn) (st : CtrlState),
      ∃ body, (runAux cfg outs turns st).trace =
          body ++ [.runTerminated (runAux cfg outs turns st).outcome] ∧
        ∀ e ∈ body, isTermEvent e = false := by
  intro turns
  induction turns with
  | nil =>
    intro st
    exact ⟨[], rfl, by simp⟩
  | cons turn rest ih =>
    intro st
    rw [runAux_cons]
    cases hS : stepTurn cfg outs turn st with
    | halt evs st' out =>
      have hNT := stepTurn_noTerm cfg outs turn st
      rw [hS] at hNT
      simp only [StepRes.evs] at hNT
      exact ⟨evs, rfl, hNT⟩
    | cont evs st' =>
      have hNT := stepTurn_noTerm cfg outs turn st
      rw [hS] at hNT
      simp only [StepRes.evs] at hNT
      obtain ⟨body, hb, hnb⟩ := ih st'
      refine ⟨evs ++ body, ?_, ?_⟩
      · show evs ++ (runAux cfg outs rest st').trace =
          (evs ++ body) ++ [.runTerminated (runAux cfg outs rest st').outcome]
        rw [hb, List.append_assoc]
      · intro e he
        rcases List.mem_append.mp he with h | h
        exacts [hNT e h, hnb e h]

theorem runAux_events (cfg : RunConfig) (outs : Nat → ToolOutcome) :
    ∀ (turns : List ReasoningTurn) (st : CtrlState),
      (∀ p r, .validationCall p r ∈ (runAux cfg outs turns st).trace →
        r = validate p.name p.args ∧ isMutating p.name = true) ∧
      (∀ p, .invokeStart p ∈ (runAux cfg outs turns st).trace →
        isMutating p.name = true → (validate p.name p.args).pass = true) ∧
      (∀ e ∈ (runAux cfg outs turns st).trace, ∀ p,
        eventProposal e = some p → st.nextSeq ≤ p.seq) := by
  intro turns
  induction turns with
  | nil =>
    intro st
    refine ⟨?_, ?_, ?_⟩
    · intro p r h; simp [runAux_nil, finish] at h
    · intro p h; simp [runAux_nil, finish] at h
    · intro e he p hp
      simp only [runAux_nil, finish, List.nil_append, List.mem_singleton] at he
      subst he
      simp [eventProposal] at hp
  | cons turn rest ih =>
    intro st
    rw [runAux_cons]
    cases hS : stepTurn cfg outs turn st with
    | halt evs st' out =>
      have hV := stepTurn_validation cfg outs turn st
      have hSt := stepTurn_start cfg outs turn st
      have hU := stepTurn_seq_ub cfg outs turn st
      rw [hS] at hV hSt hU
      simp only [StepRes.evs] at hV hSt hU
      refine ⟨?_, ?_, ?_⟩
      · intro p r h
        simp only [finish_trace] at h
        rcases List.mem_append.mp h with h | h
        · exact ⟨(hV p r h).1, (hV p r h).2.1⟩
        · simp at h
      · intro p h
        simp only [finish_trace] at h
        rcases List.mem_append.mp h with h | h
        · exact (hSt p h).2
        · simp at h
      · intro e he p hp
        simp only [finish_trace] at he
        rcases List.mem_append.mp he with h | h
        · exact (hU e h p hp).1
        · rw [List.mem_singleton] at h
          subst h
          simp [eventProposal] at hp
    | cont evs st' =>
      have hV := stepTurn_validation cfg outs turn st
      have hSt := stepTurn_start cfg outs turn st
      have hU := stepTurn_seq_ub cfg outs turn st
      have hM := stepTurn_nextSeq_mono cfg outs turn st
      rw [hS] at hV hSt hU hM
      simp only [StepRes.evs, StepRes.state] at hV hSt hU hM
      obtain ⟨ihV, ihS, ihU⟩ := ih st'
      refine ⟨?_, ?_, ?_⟩
      · intro p r h
        rcases List.mem_append.mp h with h | h
        · exact ⟨(hV p r h).1, (hV p r h).2.1⟩
        · exact ihV p r h
      · intro p h
        rcases List.mem_append.mp h with h | h
        · exact (hSt p h).2
        · exact ihS p h
      · intro e he p hp
        rcases List.mem_append.mp he with h | h
        · exact (hU e h p hp).1
        · exact Nat.le_trans hM (ihU e h p hp)

theorem runAux_callLog_mono (cfg : RunConfig) (outs : Nat → ToolOutcome) :
    ∀ (turns : List ReasoningTurn) (st : CtrlState),
      ∀ x ∈ st.callLog, x ∈ (runAux cfg outs turns st).callLog := by
  intro turns
  induction turns with
  | nil => intro st x hx; exact hx
  | cons turn rest ih =>
    intro st x hx
    rw [runAux_cons]
    have hm := stepTurn_callLog_mono cfg outs turn st x hx
    cases hS : stepTurn cfg outs turn st with
    | halt evs st' out =>
      rw [hS] at hm
      exact hm
    | cont evs st' =>
      rw [hS] at hm
      exact ih st' x hm

theorem runAux_end_in_log (cfg : RunConfig) (outs : Nat → ToolOutcome) :
    ∀ (turns : List ReasoningTurn) (st : CtrlState), ∀ p o,
      .invokeEnd p o ∈ (runAux cfg outs turns st).trace →
        (⟨p, o⟩ : ToolCallRecord) ∈ (runAux cfg outs turns st).callLog := by
  intro turns
  induction turns with
  | nil =>
    intro st p o h
    simp [runAux_nil, finish] at h
  | cons turn rest ih =>
    intro st p o h
    rw [runAux_cons] at h ⊢
    have hE := stepTurn_end cfg outs turn st
    cases hS : stepTurn cfg outs turn st with
    | halt evs st' out =>
      rw [hS] at hE h
      simp only [StepRes.evs, StepRes.state] at hE
      simp only [finish_trace] at h
      show (⟨p, o⟩ : ToolCallRecord) ∈ st'.callLog
      rcases List.mem_append.mp h with h | h
      · exact (hE p o h).2
      · simp at h
    | cont evs st' =>
      rw [hS] at hE h
      simp only [StepRes.evs, StepRes.state] at hE
      show (⟨p, o⟩ : ToolCallRecord) ∈ (runAux cfg outs rest st').callLog
      rcases List.mem_append.mp h with h | h
      · exact runAux_callLog_mono cfg outs rest st' _ ((hE p o h).2)
      · exact ih st' p o h

theorem runAux_log_src (cfg : RunConfig) (outs : Nat → ToolOutcome) :
    ∀ (turns : List ReasoningTurn) (st : CtrlState),
      ∀ x ∈ (runAux cfg outs turns st).callLog,
        x ∈ st.callLog ∨
          .invokeEnd x.call x.outcome ∈ (runAux cfg outs turns st).trace := by
  intro turns
  induction turns with
  | nil => intro st x hx; exact Or.inl hx
  | cons turn rest ih =>
    intro st x hx
    rw [runAux_cons] at hx ⊢
    have hSrc := stepTurn_callLog_src cfg outs turn st
    cases hS : stepTurn cfg outs turn st with
    | halt evs st' out =>
      rw [hS] at hSrc hx
      simp only [StepRes.evs, StepRes.state] at hSrc
      replace hx : x ∈ st'.callLog := hx
      rcases hSrc x hx with h | h
      · exact Or.inl h
      · refine Or.inr ?_
        simp only [finish_trace]
        exact List.mem_append_left _ h
    | cont evs st' =>
      rw [hS] at hSrc hx
      simp only [StepRes.evs, StepRes.state] at hSrc
      replace hx : x ∈ (runAux cfg outs rest st').callLog := hx
      rcases ih st' x hx with h | h
      · rcases hSrc x h with h2 | h2
        · exact Or.inl h2
        · exact Or.inr (List.mem_append_left _ h2)
      · exact Or.inr (List.mem_append_right _ h)

theorem runAux_gate (cfg : RunConfig) (outs : Nat → ToolOutcome) :
    ∀ (turns : List ReasoningTurn) (st : CtrlState) (prev : TraceEvent),
      gateFrom prev (runAux cfg outs turns st).trace = true := by
  intro turns
  induction turns with
  | nil =>
    intro st prev
    simp [runAux_nil, finish, gateFrom, gateStep]
  | cons turn rest ih =>
    intro st prev
    rw [runAux_cons]
    have hG := stepTurn_gate cfg outs turn st
    cases hS : stepTurn cfg outs turn st with
    | halt evs st' out =>
      rw [hS] at hG
      simp only [StepRes.evs] at hG
      show gateFrom prev (evs ++ [.runTerminated out]) = true
      rw [gateFrom_append, hG]
      simp [gateFrom, gateStep]
    | cont evs st' =>
      rw [hS] at hG
      simp only [StepRes.evs] at hG
      show gateFrom prev (evs ++ (runAux cfg outs rest st').trace) = true
      rw [gateFrom_append, hG, ih st']
      rfl

theorem runAux_se (cfg : RunConfig) (outs : Nat → ToolOutcome) :
    ∀ (turns : List ReasoningTurn) (st : CtrlState),
      seScan none (runAux cfg outs turns st).trace = true := by
  intro turns
  induction turns with
  | nil => intro st; rfl
  | cons turn rest ih =>
    intro st
    rw [runAux_cons]
    have hSe := stepTurn_se cfg outs turn st
    cases hS : stepTurn cfg outs turn st with
    | halt evs st' out =>
      rw [hS] at hSe
      simp only [StepRes.evs] at hSe
      exact hSe [.runTerminated out] rfl
    | cont evs st' =>
      rw [hS] at hSe
      simp only [StepRes.evs] at hSe
      exact hSe (runAux cfg outs rest st').trace (ih st')

theorem seScan_count : ∀ (l : List TraceEvent) (sc : Option ToolCallProposal),
    seScan sc l = true → ∀ n,
      countEnds (l.take n) ≤ countStarts (l.take n) + scWeight sc ∧
      countStarts (l.take n) + scWeight sc ≤ countEnds (l.take n) + 1 := by
  intro l
  induction l with
  | nil =>
    intro sc h n
    cases sc with
    | none => simp [countStarts, countEnds, scWeight]
    | some p => simp [seScan] at h
  | cons e l ih =>
    intro sc h n
    cases n with
    | zero =>
      cases sc <;> simp [countStarts, countEnds, scWeight]
    | succ m =>
      rw [List.take_succ_cons]
      cases sc with
      | none =>
        cases e with
        | invokeStart p =>
          have hm := ih (some p) h m
          simp only [scWeight] at hm ⊢
          simp [countStarts, countEnds, List.countP_cons] at hm ⊢
          omega
        | invokeEnd p o => simp [seScan] at h
        | reasoningStarted k =>
          replace h : seScan none l = true := h
          have hm := ih none h m
          simp only [scWeight] at hm ⊢
          simp [countStarts, countEnds, List.countP_cons] at hm ⊢
          omega
        | toolProposed p =>
          replace h : seScan none l = true := h
          have hm := ih none h m
          simp only [scWeight] at hm ⊢
          simp [countStarts, countEnds, List.countP_cons] at hm ⊢
          omega
        | proposalDiscarded p =>
          replace h : seScan none l = true := h
          have hm := ih none h m
          simp only [scWeight] at hm ⊢
          simp [countStarts, countEnds, List.countP_cons] at hm ⊢
          omega
        | validationCall p r =>
          replace h : seScan none l = true := h
          have hm := ih none h m
          simp only [scWeight] at hm ⊢
          simp [countStarts, countEnds, List.countP_cons] at hm ⊢
          omega
        | runTerminated out =>
          replace h : seScan none l = true := h
          have hm := ih none h m
          simp only [scWeight] at hm ⊢
          simp [countStarts, countEnds, List.countP_cons] at hm ⊢
          omega
      | some p =>
        cases e with
        | invokeEnd q o =>
          simp only [seScan, Bool.and_eq_true, decide_eq_true_eq] at h
          have hm := ih none h.2 m
          simp only [scWeight] at hm ⊢
          simp [countStarts, countEnds, List.countP_cons] at hm ⊢
          omega
        | invokeStart q => simp [seScan] at h
        | reasoningStarted k => simp [seScan] at h
        | toolProposed q => simp [seScan] at h
        | proposalDiscarded q => simp [seScan] at h
        | validationCall q r => simp [seScan] at h
        | runTerminated out => simp [seScan] at h

theorem seScan_some {q : ToolCallProposal} {l : List TraceEvent}
    (h : seScan (some q) l = true) :
    ∃ o l2, l = .invokeEnd q o :: l2 ∧ seScan none l2 = true := by
  cases l with
  | nil => simp [seScan] at h
  | cons e l =>
    cases e with
    | invokeEnd r o =>
      simp only [seScan, Bool.and_eq_true, decide_eq_true_eq] at h
      exact ⟨o, l, by rw [h.1], h.2⟩
    | invokeStart r => simp [seScan] at h
    | reasoningStarted k => simp [seScan] at h
    | toolProposed r => simp [seScan] at h
    | proposalDiscarded r => simp [seScan] at h
    | validationCall r v => simp [seScan] at h
    | runTerminated out => simp [seScan] at h

theorem seScan_pair_aux : ∀ (l : List TraceEvent) (sc : Option ToolCallProposal),
    seScan sc l = true → ∀ p, .invokeStart p ∈ l →
      ∃ o, .invokeEnd p o ∈ l := by
  intro l
  induction l with
  | nil => intro sc h p hp; simp at hp
  | cons e l ih =>
    intro sc h p hp
    cases sc with
    | some q =>
      obtain ⟨o, l2, heq, h2⟩ := seScan_some h
      injection heq with he hl
      subst he hl
      rcases List.mem_cons.mp hp with hh | hp'
      · exact absurd hh (by simp)
      · obtain ⟨o2, ho2⟩ := ih none h2 p hp'
        exact ⟨o2, List.mem_cons_of_mem _ ho2⟩
    | none =>
      cases e with
      | invokeStart r =>
        have h' : seScan (some r) l = true := h
        obtain ⟨o, l2, rfl, h2⟩ := seScan_some h'
        rcases List.mem_cons.mp hp with hh | hp'
        · injection hh with hh
          subst hh
          exact ⟨o, List.mem_cons_of_mem _ (List.mem_cons_self _ _)⟩
        · rcases List.mem_cons.mp hp' with hh2 | hp''
          · exact absurd hh2 (by simp)
          · obtain ⟨o2, ho2⟩ := ih (some r) h' p hp'
            exact ⟨o2, List.mem_cons_of_mem _ ho2⟩
      | invokeEnd r o => simp [seScan] at h
      | reasoningStarted k =>
        replace h : seScan none l = true := h
        rcases List.mem_cons.mp hp with hh | hp'
        · exact absurd hh (by simp)
        · obtain ⟨o2, ho2⟩ := ih none h p hp'
          exact ⟨o2, List.mem_cons_of_mem _ ho2⟩
      | toolProposed r =>
        replace h : seScan none l = true := h
        rcases List.mem_cons.mp hp with hh | hp'
        · exact absurd hh (by simp)
        · obtain ⟨o2, ho2⟩ := ih none h p hp'
          exact ⟨o2, List.mem_cons_of_mem _ ho2⟩
      | proposalDiscarded r =>
        replace h : seScan none l = true := h
        rcases List.mem_cons.mp hp with hh | hp'
        · exact absurd hh (by simp)
        · obtain ⟨o2, ho2⟩ := ih none h p hp'
          exact ⟨o2, List.mem_cons_of_mem _ ho2⟩
      | validationCall r v =>
        replace h : seScan none l = true := h
        rcases List.mem_cons.mp hp with hh | hp'
        · exact absurd hh (by simp)
        · obtain ⟨o2, ho2⟩ := ih none h p hp'
          exact ⟨o2, List.mem_cons_of_mem _ ho2⟩
      | runTerminated out =>
        replace h : seScan none l = true := h
        rcases List.mem_cons.mp hp with hh | hp'
        · exact absurd hh (by simp)
        · obtain ⟨o2, ho2⟩ := ih none h p hp'
          exact ⟨o2, List.mem_cons_of_mem _ ho2⟩

theorem runAux_discard_sep (cfg : RunConfig) (outs : Nat → ToolOutcome) :
    ∀ (turns : List ReasoningTurn) (st : CtrlState) (p : ToolCallProposal),
      .proposalDiscarded p ∈ (runAux cfg outs turns st).trace →
        (∀ r, .validationCall p r ∉ (runAux cfg outs turns st).trace) ∧
        .invokeStart p ∉ (runAux cfg outs turns st).trace ∧
        (∀ o, .invokeEnd p o ∉ (runAux cfg outs turns st).trace) := by
  intro turns
  induction turns with
  | nil =>
    intro st p hd
    simp [runAux_nil, finish] at hd
  | cons turn rest ih =>
    intro st p hd
    rw [runAux_cons] at hd ⊢
    have hU := stepTurn_seq_ub cfg outs turn st
    have hD := stepTurn_discarded cfg outs turn st
    have hV := stepTurn_validation cfg outs turn st
    have hSt := stepTurn_start cfg outs turn st
    have hE := stepTurn_end cfg outs turn st
    cases hS : stepTurn cfg outs turn st with
    | halt evs st2 out =>
      rw [hS] at hU hD hV hSt hE hd
      simp only [StepRes.evs, StepRes.state] at hU hD hV hSt hE
      rw [finish_trace] at hd
      have hdp : st.nextSeq < p.seq := by
        rcases List.mem_append.mp hd with h | h
        · exact hD p h
        · simp at h
      refine ⟨?_, ?_, ?_⟩
      · intro r hr
        rw [finish_trace] at hr
        rcases List.mem_append.mp hr with h | h
        · have := (hV p r h).2.2; omega
        · simp at h
      · intro hr
        rw [finish_trace] at hr
        rcases List.mem_append.mp hr with h | h
        · have := (hSt p h).1; omega
        · simp at h
      · intro o hr
        rw [finish_trace] at hr
        rcases List.mem_append.mp hr with h | h
        · have := (hE p o h).1; omega
        · simp at h
    | cont evs st2 =>
      rw [hS] at hU hD hV hSt hE hd
      simp only [StepRes.evs, StepRes.state] at hU hD hV hSt hE
      have hLB := (runAux_events cfg outs rest st2).2.2
      replace hd : TraceEvent.proposalDiscarded p ∈
          evs ++ (runAux cfg outs rest st2).trace := hd
      rcases List.mem_append.mp hd with hd | hd
      · have hdlt : p.seq < st2.nextSeq := (hU _ hd p rfl).2
        refine ⟨?_, ?_, ?_⟩
        · intro r hr
          replace hr : TraceEvent.validationCall p r ∈
              evs ++ (runAux cfg outs rest st2).trace := hr
          rcases List.mem_append.mp hr with h | h
          · have h1 := (hV p r h).2.2
            have h2 := hD p hd
            omega
          · have := hLB _ h p rfl; omega
        · intro hr
          replace hr : TraceEvent.invokeStart p ∈
              evs ++ (runAux cfg outs rest st2).trace := hr
          rcases List.mem_append.mp hr with h | h
          · have h1 := (hSt p h).1
            have h2 := hD p hd
            omega
          · have := hLB _ h p rfl; omega
        · intro o hr
          replace hr : TraceEvent.invokeEnd p o ∈
              evs ++ (runAux cfg outs rest st2).trace := hr
          rcases List.mem_append.mp hr with h | h
          · have h1 := (hE p o h).1
            have h2 := hD p hd
            omega
          · have := hLB _ h p rfl; omega
      · have hdge : st2.nextSeq ≤ p.seq := hLB _ hd p rfl
        obtain ⟨ihV, ihS, ihE⟩ := ih st2 p hd
        refine ⟨?_, ?_, ?_⟩
        · intro r hr
          replace hr : TraceEvent.validationCall p r ∈
              evs ++ (runAux cfg outs rest st2).trace := hr
          rcases List.mem_append.mp hr with h | h
          · have := (hU _ h p rfl).2; omega
          · exact ihV r h
        · intro hr
          replace hr : TraceEvent.invokeStart p ∈
              evs ++ (runAux cfg outs rest st2).trace := hr
          rcases List.mem_append.mp hr with h | h
          · have := (hU _ h p rfl).2; omega
          · exact ihS h
        · intro o hr
          replace hr : TraceEvent.invokeEnd p o ∈
              evs ++ (runAux cfg outs rest st2).trace := hr
          rcases List.mem_append.mp hr with h | h
          · have := (hU _ h p rfl).2; omega
          · exact ihE o h

theorem runAux_cancel (cfg : RunConfig) (outs : Nat → ToolOutcome) (n : Nat)
    (hdc : cfg.cancel = some (.duringCall n)) :
    ∀ (turns : List ReasoningTurn) (st : CtrlState),
      (runAux cfg outs turns st).outcome = .aborted .cancelled →
      ∃ body q o, (runAux cfg outs turns st).trace =
          body ++ [.invokeEnd q o, .runTerminated (.aborted .cancelled)] ∧
        (⟨q, o⟩ : ToolCallRecord) ∈ (runAux cfg outs turns st).callLog := by
  intro turns
  induction turns with
  | nil =>
    intro st h
    simp [runAux_nil, finish] at h
  | cons turn rest ih =>
    intro st h
    rw [runAux_cons] at h ⊢
    cases hS : stepTurn cfg outs turn st with
    | halt evs st2 out =>
      rw [hS] at h
      replace h : out = .aborted .cancelled := h
      obtain ⟨body, q, o, hbq, hmem⟩ :=
        stepTurn_cancel_shape cfg outs turn st n hdc evs st2 out hS h
      refine ⟨body, q, o, ?_, hmem⟩
      show evs ++ [.runTerminated out] = _
      rw [hbq, h, List.append_assoc]
      rfl
    | cont evs st2 =>
      rw [hS] at h
      replace h : (runAux cfg outs rest st2).outcome = .aborted .cancelled := h
      obtain ⟨body, q, o, hbq, hmem⟩ := ih st2 h
      refine ⟨evs ++ body, q, o, ?_, hmem⟩
      show evs ++ (runAux cfg outs rest st2).trace = _
      rw [hbq, List.append_assoc]

theorem ledgerIdOf_spec : ∀ (l : List ToolCallRecord) (id : String),
    ledgerIdOf l = some id →
    ∃ r, r ∈ l ∧ isMutating r.call.name = true ∧ r.outcome = .ok id := by
  intro l
  induction l with
  | nil => intro id h; simp [ledgerIdOf] at h
  | cons r rest ih =>
    intro id h
    cases hm : isMutating r.call.name with
    | true =>
      cases ho : r.outcome with
      | ok payload =>
        simp [ledgerIdOf, hm, ho] at h
        exact ⟨r, List.mem_cons_self r rest, hm, by rw [ho, h]⟩
      | fail m =>
        simp [ledgerIdOf, hm, ho] at h
        obtain ⟨r2, hr2, hm2, ho2⟩ := ih id h
        exact ⟨r2, List.mem_cons_of_mem _ hr2, hm2, ho2⟩
      | timeout =>
        simp [ledgerIdOf, hm, ho] at h
        obtain ⟨r2, hr2, hm2, ho2⟩ := ih id h
        exact ⟨r2, List.mem_cons_of_mem _ hr2, hm2, ho2⟩
    | false =>
      simp [ledgerIdOf, hm] at h
      obtain ⟨r2, hr2, hm2, ho2⟩ := ih id h
      exact ⟨r2, List.mem_cons_of_mem _ hr2, hm2, ho2⟩

theorem validate_pass_eq (op : String) (args : Args) :
    (validate op args).pass = (validate op args).violations.isEmpty := rfl

theorem validate_fail_of_violation {op : String} {args : Args} {v : Violation}
    (h : v ∈ (validate op args).violations) : (validate op args).pass = false := by
  rw [validate_pass_eq]
  cases hl : (validate op args).violations with
  | nil => rw [hl] at h; simp at h
  | cons a l => rfl

theorem validate_mem_field {op : String} {args : Args} {f : String}
    {v : ArgValue} {w : Violation} (hm : (f, v) ∈ args)
    (hw : w ∈ fieldViolations f v) : w ∈ (validate op args).violations := by
  show w ∈ missingViolations args (requiredFieldsOf op) ++
    (args.map fun fv => fieldViolations fv.1 fv.2).flatten
  refine List.mem_append_right _ ?_
  rw [List.mem_flatten]
  exact ⟨fieldViolations f v, List.mem_map.mpr ⟨(f, v), hm, rfl⟩, hw⟩

theorem validate_mem_missing {op : String} {args : Args} {w : Violation}
    (hw : w ∈ missingViolations args (requiredFieldsOf op)) :
    w ∈ (validate op args).violations :=
  List.mem_append_left _ hw

theorem missing_mem {args : Args} : ∀ (fl : List String) (f : String), f ∈ fl →
    lookupArg args f = none →
    (⟨f, .missingField, "required field absent"⟩ : Violation) ∈
      missingViolations args fl := by
  intro fl
  induction fl with
  | nil => intro f h; simp at h
  | cons g rest ih =>
    intro f hf hnone
    rcases List.mem_cons.mp hf with rfl | hf2
    · unfold missingViolations
      rw [hnone]
      exact List.mem_cons_self _ _
    · unfold missingViolations
      cases hlg : lookupArg args g with
      | none => exact List.mem_cons_of_mem _ (ih f hf2 hnone)
      | some v => exact ih f hf2 hnone

theorem emptyId_violation {f : String} (hf : isIdentifierField f = true) :
    (⟨f, .emptyIdentifier, "empty identifier"⟩ : Violation) ∈
      fieldViolations f (.str ("")) := by
  simp [fieldViolations, hf]

theorem getDisplayList_noChop {l : List Char}
    (h : (!ciContains l thinkOpen && ciContains l thinkClose) = false) :
    getDisplayList l =
      trimChars (removeBlocks canvasOpen canvasClose
        (removeBlocks thinkOpen thinkClose l)) := by
  unfold getDisplayList
  rw [h]
  rfl

theorem getDisplayList_chop {l : List Char}
    (h : (!ciContains l thinkOpen && ciContains l thinkClose) = true) :
    getDisplayList l =
      trimChars (removeBlocks canvasOpen canvasClose
        (removeBlocks thinkOpen thinkClose (chopToFirst thinkClose l))) := by
  unfold getDisplayList
  rw [h]
  rfl

/-! ### Part 6: the claims -/

/-- C1: in every run the whole event trace passes the adjacency gate, so a
mutating invoker start occurs only immediately after a passing firewall
validation of that very proposal; and every mutating proposal the invoker
ever starts validates, so a rejected proposal is never forwarded at any
later step. -/
theorem c1_firewall_gates (cfg : RunConfig) (outs : Nat → ToolOutcome)
    (turns : List ReasoningTurn) :
    gateAll (run cfg outs turns).trace = true ∧
    ∀ p, TraceEvent.invokeStart p ∈ (run cfg outs turns).trace →
      isMutating p.name = true → (validate p.name p.args).pass = true :=
  ⟨runAux_gate cfg outs turns initState (.reasoningStarted 0),
   fun p h hm => (runAux_events cfg outs turns initState).2.1 p h hm⟩

/-- Witness for C1: on the concrete entry-creation run the gate holds and
the invoked mutating proposal passed validation. -/
theorem c1_witness :
    TraceEvent.invokeStart cProp ∈ (run plainCfg ledgerOuts c5Turns).trace ∧
    isMutating cProp.name = true ∧
    (validate cProp.name cProp.args).pass = true :=
  ⟨by decide, by decide,
   (c1_firewall_gates plainCfg ledgerOuts c5Turns).2 cProp (by decide) (by decide)⟩

/-- C2: every run trace passes the single-slot scanner, and in every trace
prefix the number of started invoker calls exceeds the number of completed
ones by at most one: at most one call of the run is ever in flight. -/
theorem c2_single_flight (cfg : RunConfig) (outs : Nat → ToolOutcome)
    (turns : List ReasoningTurn) :
    seScan none (run cfg outs turns).trace = true ∧
    ∀ n, countStarts ((run cfg outs turns).trace.take n) ≤
      countEnds ((run cfg outs turns).trace.take n) + 1 := by
  have hse := runAux_se cfg outs turns initState
  refine ⟨hse, fun n => ?_⟩
  have h := (seScan_count (run cfg outs turns).trace none hse n).2
  simpa [scWeight] using h

/-- C3: the Loop Detector verdict is Terminate exactly when the updated
count of the observed (operation, fingerprint) pair strictly exceeds 2;
on scenario C the third identical observation aborts the run with
LoopDetected after exactly three invoker calls, and a fourth identical
turn adds no further call. -/
theorem c3_loop_detector (log : LoopLog) (op : String) (args : Args) :
    ((observeCall log op args).2 = .terminate ↔
      2 < keyCount (observeCall log op args).1 (op, normalizeArgs args)) ∧
    (run plainCfg okOuts scenCTurns).outcome = .aborted .loopDetected ∧
    (run plainCfg okOuts scenCTurns).callLog.length = 3 ∧
    (run plainCfg okOuts scenCExtra).callLog.length = 3 ∧
    countStarts (run plainCfg okOuts scenCExtra).trace = 3 := by
  refine ⟨?_, by decide, by decide, by decide, by decide⟩
  by_cases h : 2 < keyCount (bump log (op, normalizeArgs args))
      (op, normalizeArgs args)
  · simp [observeCall, loopThreshold, h]
  · simp [observeCall, loopThreshold, h]

/-- C4: a proposal recorded as discarded is never validated, never started
and never completed anywhere in the run; and an uncancelled step on a
multi-proposal response emits exactly the reasoning start, the forwarded
head proposal and one discard-recording event per trailing proposal before
anything else. -/
theorem c4_first_only (cfg : RunConfig) (outs : Nat → ToolOutcome)
    (turns : List ReasoningTurn) :
    (∀ p, TraceEvent.proposalDiscarded p ∈ (run cfg outs turns).trace →
      (∀ r, TraceEvent.validationCall p r ∉ (run cfg outs turns).trace) ∧
      TraceEvent.invokeStart p ∉ (run cfg outs turns).trace ∧
      (∀ o, TraceEvent.invokeEnd p o ∉ (run cfg outs turns).trace)) ∧
    (∀ st c cs, cfg.cancel ≠ some (.beforeStep st.stepIdx) →
      ∃ tail, (stepTurn cfg outs (.calls (c :: cs)) st).evs =
        callsPre st c cs ++ tail) :=
  ⟨fun p hp => runAux_discard_sep cfg outs turns initState p hp,
   fun st c cs hnc => stepTurn_prefix cfg outs st c cs hnc⟩

/-- Witness for C4: on scenario B the second proposal is recorded as
discarded and never started, and the step emits the discard events. -/
theorem c4_witness :
    TraceEvent.proposalDiscarded dProp ∈ (run plainCfg okOuts c4Turns).trace ∧
    TraceEvent.invokeStart dProp ∉ (run plainCfg okOuts c4Turns).trace ∧
    plainCfg.cancel ≠ some (.beforeStep initState.stepIdx) ∧
    ∃ tail, (stepTurn plainCfg okOuts (.calls (c4Head :: c4Rest)) initState).evs =
      callsPre initState c4Head c4Rest ++ tail :=
  ⟨by decide,
   ((c4_first_only plainCfg okOuts c4Turns).1 dProp (by decide)).2.1,
   by decide,
   (c4_first_only plainCfg okOuts c4Turns).2 initState c4Head c4Rest (by decide)⟩

/-- C5: an OCR failure moves the DocumentRecord to Failed and starts no
entry-creation run; and a record reaches Committed only when the run
completed and its call log holds a successful mutating ledger write whose
assigned identifier the record retains. -/
theorem c5_commit_gate (cfg : RunConfig) (outs : Nat → ToolOutcome)
    (turns : List ReasoningTurn) (src : String) :
    (∀ m, (processDocument cfg outs turns src (.err m)).record.stage = .failed ∧
      (processDocument cfg outs turns src (.err m)).runStarted = false ∧
      (processDocument cfg outs turns src (.err m)).runResult = none) ∧
    (∀ fs, (processDocument cfg outs turns src (.ok fs)).record.stage = .committed →
      ∃ a id, (run cfg outs turns).outcome = .completed a ∧
        (processDocument cfg outs turns src (.ok fs)).record.ledgerId = some id ∧
        ∃ r, r ∈ (run cfg outs turns).callLog ∧
          isMutating r.call.name = true ∧ r.outcome = .ok id) := by
  refine ⟨fun m => ⟨rfl, rfl, rfl⟩, fun fs hc => ?_⟩
  cases ho : (run cfg outs turns).outcome with
  | completed a =>
    cases hl : ledgerIdOf (run cfg outs turns).callLog with
    | some id =>
      obtain ⟨r, hr, hm, hro⟩ := ledgerIdOf_spec _ id hl
      refine ⟨a, id, rfl, ?_, r, hr, hm, hro⟩
      simp [processDocument, ho, hl]
    | none =>
      exfalso
      simp [processDocument, ho, hl] at hc
  | aborted reason =>
    exfalso
    simp [processDocument, ho] at hc

/-- Witness for C5: the fixture document commits, and the claim yields the
successful mutating write behind it. -/
theorem c5_witness :
    (processDocument plainCfg ledgerOuts c5Turns c5Src (.ok c5Fields)).record.stage
        = .committed ∧
    ∃ a id, (run plainCfg ledgerOuts c5Turns).outcome = .completed a ∧
      (processDocument plainCfg ledgerOuts c5Turns c5Src
        (.ok c5Fields)).record.ledgerId = some id ∧
      ∃ r, r ∈ (run plainCfg ledgerOuts c5Turns).callLog ∧
        isMutating r.call.name = true ∧ r.outcome = .ok id :=
  ⟨by decide,
   (c5_commit_gate plainCfg ledgerOuts c5Turns c5Src).2 c5Fields (by decide)⟩

/-- C6: an expense-claim proposal carrying an empty payer_key fails
validation with an emptyIdentifier violation on payer_key; any present
identifier-shaped field that is empty, or required field that is absent,
fails validation; and a mutating proposal that fails validation is never
started by the invoker in any run. -/
theorem c6_empty_identifier (args : Args) :
    ((("payer_key", ArgValue.str ("")) ∈ args) →
      (validate ("create_expense_claim") args).pass = false ∧
      ∃ v, v ∈ (validate ("create_expense_claim") args).violations ∧
        v.path = "payer_key" ∧ v.kind = .emptyIdentifier) ∧
    (∀ op f, isIdentifierField f = true →
      (((f, ArgValue.str ("")) ∈ args) → (validate op args).pass = false) ∧
      (f ∈ requiredFieldsOf op → lookupArg args f = none →
        (validate op args).pass = false)) ∧
    (∀ (cfg : RunConfig) (outs : Nat → ToolOutcome)
      (turns : List ReasoningTurn) (p : ToolCallProposal),
      isMutating p.name = true → (validate p.name p.args).pass = false →
      TraceEvent.invokeStart p ∉ (run cfg outs turns).trace) := by
  refine ⟨?_, ?_, ?_⟩
  · intro hm
    have hv : (⟨"payer_key", .emptyIdentifier, "empty identifier"⟩ : Violation) ∈
        (validate ("create_expense_claim") args).violations :=
      validate_mem_field hm (emptyId_violation (by decide))
    exact ⟨validate_fail_of_violation hv, ⟨_, hv, rfl, rfl⟩⟩
  · intro op f hf
    refine ⟨?_, ?_⟩
    · intro hm
      exact validate_fail_of_violation (validate_mem_field hm (emptyId_violation hf))
    · intro hreq hnone
      exact validate_fail_of_violation
        (validate_mem_missing (missing_mem _ f hreq hnone))
  · intro cfg outs turns p hm hfail hmem
    have h := (runAux_events cfg outs turns initState).2.1 p hmem hm
    rw [hfail] at h
    exact Bool.false_ne_true h

/-- Witness for C6: scenario A concretely: the empty payer key is in the
argument set and validation fails with the payer_key violation. -/
theorem c6_witness :
    ((("payer_key", ArgValue.str ("")) ∈ c6Args)) ∧
    (validate ("create_expense_claim") c6Args).pass = false ∧
    ∃ v, v ∈ (validate ("create_expense_claim") c6Args).violations ∧
      v.path = "payer_key" ∧ v.kind = .emptyIdentifier := by
  have h := (c6_empty_identifier c6Args).1 (by decide)
  exact ⟨by decide, h.1, h.2⟩

/-- C7: every started invoker call of a run has a matching completion in
the trace; and a run cancelled while a call is in flight ends with that
call completing, the abort following immediately, and the completed
record surfaced in the call log. -/
theorem c7_cancel_surfaces (cfg : RunConfig) (outs : Nat → ToolOutcome)
    (turns : List ReasoningTurn) (n : Nat)
    (hc : cfg.cancel = some (.duringCall n))
    (hout : (run cfg outs turns).outcome = .aborted .cancelled) :
    (∀ p, TraceEvent.invokeStart p ∈ (run cfg outs turns).trace →
      ∃ o, TraceEvent.invokeEnd p o ∈ (run cfg outs turns).trace) ∧
    ∃ body q o, (run cfg outs turns).trace =
        body ++ [.invokeEnd q o, .runTerminated (.aborted .cancelled)] ∧
      (⟨q, o⟩ : ToolCallRecord) ∈ (run cfg outs turns).callLog := by
  constructor
  · intro p hp
    exact seScan_pair_aux (run cfg outs turns).trace none
      (runAux_se cfg outs turns initState) p hp
  · exact runAux_cancel cfg outs n hc turns initState hout

/-- Witness for C7: the fixture run cancelled during call 0 aborts as
cancelled and its trace ends with the completed call. -/
theorem c7_witness :
    c7Cfg.cancel = some (.duringCall 0) ∧
    (run c7Cfg ledgerOuts c7Turns).outcome = .aborted .cancelled ∧
    ∃ body q o, (run c7Cfg ledgerOuts c7Turns).trace =
        body ++ [.invokeEnd q o, .runTerminated (.aborted .cancelled)] ∧
      (⟨q, o⟩ : ToolCallRecord) ∈ (run c7Cfg ledgerOuts c7Turns).callLog :=
  ⟨rfl, by decide,
   (c7_cancel_surfaces c7Cfg ledgerOuts c7Turns 0 rfl (by decide)).2⟩

/-- C8 (amended): every step the frontend builds from an agent event
carries the fresh id, the event status, message, optional data payload and
timestamp, and its kind is one of the six kinds of the code union
thinking, tool_call, tool_result, ocr, response, routing; no session
identifier is carried. -/
theorem c8_event_stream (fresh : String) (e : AgentEvent) (s : ThinkingStep)
    (h : eventToStep fresh e = some s) :
    stepTypeName s.type ∈ codeThinkingStepKinds ∧
    s.id = fresh ∧ s.status = e.status ∧ s.message = e.message ∧
    s.data = e.data ∧ s.timestamp = e.timestamp := by
  cases e with
  | mk t status message data timestamp =>
    cases t with
    | done => simp [eventToStep] at h
    | step k =>
      simp only [eventToStep, Option.some.injEq] at h
      subst h
      refine ⟨?_, rfl, rfl, rfl, rfl, rfl⟩
      cases k <;> simp [stepTypeName, codeThinkingStepKinds]

/-- Witness for C8: the thinking event maps to a step of the code union
copying every event field. -/
theorem c8_witness :
    eventToStep ("s1") thinkingEvent = some thinkingStep ∧
    (stepTypeName thinkingStep.type ∈ codeThinkingStepKinds ∧
      thinkingStep.id = "s1" ∧ thinkingStep.status = thinkingEvent.status ∧
      thinkingStep.message = thinkingEvent.message ∧
      thinkingStep.data = thinkingEvent.data ∧
      thinkingStep.timestamp = thinkingEvent.timestamp) :=
  ⟨rfl, c8_event_stream ("s1") thinkingEvent thinkingStep rfl⟩

/-- Counterexample for C8: the stream delivers a routing step, and routing
is not one of the eight kinds the spec enumerates; in fact no kind of the
code union is. -/
theorem c8_counterexample :
    (∃ s, eventToStep ("s1") routingEvent = some s ∧
      stepTypeName s.type ∉ specProgressEventKinds) ∧
    ∀ k, k ∈ codeThinkingStepKinds → k ∉ specProgressEventKinds := by
  refine ⟨⟨⟨"s1", .routing, .started, "routing", none, "t0"⟩, rfl, by decide⟩,
    by decide⟩

/-- C9: the Validation Firewall is pure and idempotent: a call returns the
proposal unchanged, and a second call on the returned proposal yields the
identical call result, in particular the identical ValidationResult. -/
theorem c9_firewall_idempotent (p : ToolCallProposal) :
    (validateCall p).2 = p ∧
    validateCall ((validateCall p).2) = validateCall p ∧
    (validateCall ((validateCall p).2)).1 = (validateCall p).1 :=
  ⟨rfl, rfl, rfl⟩

/-- C10 (amended): a tag-free input is only trimmed; an input with a
close tag but no open tag loses everything through the first close tag;
and a well-formed think block is removed together with its content in one
pass. The output is not guaranteed free of think blocks: removal is a
single non-rescanning pass, so a block split by a removed span re-forms. -/
theorem c10_display (s : String) :
    (tagFree s.data = true →
      getDisplayContent s = String.mk (trimChars s.data)) ∧
    (ciContains s.data thinkOpen = false →
      ∀ t r, s.data = t ++ thinkClose ++ r → ciContains t thinkClose = false →
        tagFree r = true → getDisplayContent s = String.mk (trimChars r)) ∧
    (∀ a t b, s.data = a ++ thinkOpen ++ t ++ thinkClose ++ b →
      ciContains a thinkOpen = false → ciContains t thinkClose = false →
      ciContains b thinkOpen = false → ciContains (a ++ b) canvasOpen = false →
      getDisplayContent s = String.mk (trimChars (a ++ b))) := by
  refine ⟨?_, ?_, ?_⟩
  · intro h
    simp [tagFree] at h
    obtain ⟨⟨⟨h1, h2⟩, h3⟩, h4⟩ := h
    show String.mk (getDisplayList s.data) = _
    rw [getDisplayList_noChop (by rw [h2]; simp),
      removeBlocks_noOcc thinkClose h1, removeBlocks_noOcc canvasClose h3]
  · intro hop t r hdata ht hr
    simp [tagFree] at hr
    obtain ⟨⟨⟨h1, h2⟩, h3⟩, h4⟩ := hr
    have hsoc : selfOverlapFree thinkClose = true := by decide
    have hclT : ciContains s.data thinkClose = true := by
      rw [hdata, List.append_assoc]
      exact ciContains_append_right t
        (ciContains_of_starts (ciStartsWith_self_append thinkClose r))
    have hcond : (!ciContains s.data thinkOpen && ciContains s.data thinkClose)
        = true := by
      rw [hop, hclT]; rfl
    show String.mk (getDisplayList s.data) = _
    rw [getDisplayList_chop hcond, hdata, chopToFirst_append r hsoc ht,
      removeBlocks_noOcc thinkClose h1, removeBlocks_noOcc canvasClose h3]
  · intro a t b hdata ha ht hb hcanvas
    have hsoo : selfOverlapFree thinkOpen = true := by decide
    have hsoc : selfOverlapFree thinkClose = true := by decide
    have hopne : thinkOpen ≠ [] := by decide
    have hz := no_tail_start hsoo (t ++ (thinkClose ++ b))
    have hopT : ciContains s.data thinkOpen = true := by
      rw [hdata]
      rw [show a ++ thinkOpen ++ t ++ thinkClose ++ b =
        a ++ (thinkOpen ++ (t ++ (thinkClose ++ b))) by simp [List.append_assoc]]
      exact ciContains_append_right a
        (ciContains_of_starts (ciStartsWith_self_append thinkOpen _))
    have hcond : (!ciContains s.data thinkOpen && ciContains s.data thinkClose)
        = false := by
      rw [hopT]; rfl
    show String.mk (getDisplayList s.data) = _
    rw [getDisplayList_noChop hcond, hdata]
    rw [show a ++ thinkOpen ++ t ++ thinkClose ++ b =
      a ++ (thinkOpen ++ (t ++ (thinkClose ++ b))) by simp [List.append_assoc]]
    rw [removeBlocks_walk thinkClose (thinkOpen ++ (t ++ (thinkClose ++ b))) ha hz]
    rw [show thinkOpen ++ (t ++ (thinkClose ++ b)) =
      thinkOpen ++ t ++ thinkClose ++ b by simp [List.append_assoc]]
    rw [removeBlocks_block b hopne hsoc ht]
    rw [removeBlocks_noOcc thinkClose hb]
    rw [removeBlocks_noOcc canvasClose hcanvas]

/-- Witness for C10: a single well-formed think block between plain text
is removed in one pass. -/
theorem c10_witness :
    getDisplayContent ("x<think>hidden</think>y") = "xy" := by
  have h := (c10_display ("x<think>hidden</think>y")).2.2
    (("x").data) (("hidden").data) (("y").data)
    (by decide) (by decide) (by decide) (by decide) (by decide)
  rw [h]
  decide

/-- Counterexample for C10: the single pass never rescans its output, so
an input whose outer think block is split by an inner one yields an
output that again contains a complete think block, refuting the claimed
block-free guarantee. -/
theorem c10_counterexample :
    getDisplayContent ("<t<think>a</think>hink>b</think>") = "<think>b</think>" ∧
    containsBlock thinkOpen thinkClose
      (getDisplayContent ("<t<think>a</think>hink>b</think>")).data = true := by
  exact ⟨by decide, by decide⟩

end AutoMgr
